import Mathlib

/-!
Verification of the beam-search decoding core of ParlAI
(`parlai/core/torch_generator_agent.py` and `parlai/core/search.py`).

Modelling conventions:
* Machine floating-point scores are modelled by `WithBot α` over a linear
  ordered commutative ring `α` (instantiated at `ℤ` for executable witnesses
  and counterexamples, and at `ℝ` where the source uses real exponentiation,
  i.e. `math.pow`).  The float `-inf` is `⊥`; `⊥ + x = x + ⊥ = ⊥` matches
  IEEE `-inf + finite = -inf`.
* Tensors are lists of lists; indexed reads are `List.getD` with default `⊥`
  (resp. `0`), which agrees with the source wherever the source does not raise
  an `IndexError`.
* `torch.topk` does not document its tie order; we model the common behaviour
  of ranking by value descending, breaking ties by lowest flat index.
-/

/-- Rank relation used to model `torch.topk`: pairs `(index, value)` are
ordered by value descending, with ties broken by lowest index. -/
def rankRel {α : Type} [LinearOrderedCommRing α] (a b : ℕ × WithBot α) : Prop :=
  b.2 < a.2 ∨ (a.2 = b.2 ∧ a.1 ≤ b.1)

instance {α : Type} [LinearOrderedCommRing α] : DecidableRel (rankRel (α := α)) :=
  fun _ _ => inferInstanceAs (Decidable (_ ∨ _))

instance {α : Type} [LinearOrderedCommRing α] : IsTotal (ℕ × WithBot α) rankRel := by
  constructor
  intro a b
  rcases lt_trichotomy a.2 b.2 with h | h | h
  · exact Or.inr (Or.inl h)
  · rcases Nat.le_total a.1 b.1 with h1 | h1
    · exact Or.inl (Or.inr ⟨h, h1⟩)
    · exact Or.inr (Or.inr ⟨h.symm, h1⟩)
  · exact Or.inl (Or.inl h)

instance {α : Type} [LinearOrderedCommRing α] : IsTrans (ℕ × WithBot α) rankRel := by
  constructor
  intro a b c hab hbc
  rcases hab with h | ⟨he, hi⟩
  · rcases hbc with h2 | ⟨he2, _⟩
    · exact Or.inl (h2.trans h)
    · exact Or.inl (he2 ▸ h)
  · rcases hbc with h2 | ⟨he2, hi2⟩
    · exact Or.inl (he ▸ h2)
    · exact Or.inr ⟨he.trans he2, hi.trans hi2⟩

/-- All `(index, value)` pairs of a score vector. -/
def idxList {α : Type} [LinearOrderedCommRing α] (v : List (WithBot α)) :
    List (ℕ × WithBot α) :=
  (List.range v.length).map (fun i => (i, v.getD i ⊥))

/-- The score vector ranked best-first (value descending, index ascending);
models the ordering underlying `torch.topk`. -/
def rankedIdx {α : Type} [LinearOrderedCommRing α] (v : List (WithBot α)) :
    List (ℕ × WithBot α) :=
  List.insertionSort rankRel (idxList v)

/-- Indices returned by `torch.topk(v, k)`. -/
def topkIdx {α : Type} [LinearOrderedCommRing α] (v : List (WithBot α)) (k : ℕ) :
    List ℕ :=
  ((rankedIdx v).take k).map Prod.fst

/-- Values returned by `torch.topk(v, k)`. -/
def topkVal {α : Type} [LinearOrderedCommRing α] (v : List (WithBot α)) (k : ℕ) :
    List (WithBot α) :=
  ((rankedIdx v).take k).map Prod.snd

/-- Descending sort of a score vector (ties by original position). -/
def sortDesc {α : Type} [LinearOrderedCommRing α] (v : List (WithBot α)) :
    List (WithBot α) :=
  List.insertionSort (· ≥ ·) v


/-! ## TreeSearch (`torch_generator_agent.py`): data model -/

/-- Bookkeeping record of `_HypothesisTail.__slots__`. -/
structure HypTail (α : Type) where
  timestep : ℕ
  hypid : ℕ
  score : WithBot α
  tokenid : ℕ
deriving DecidableEq, Repr

/-- State of a `TreeSearch` object (one per input sentence).  Fields mirror
the attributes set in `TreeSearch.__init__` plus configuration. -/
structure TS (α : Type) where
  beam_size : ℕ
  length_penalty : α
  block_ngram : ℤ
  min_length : ℕ
  eos : ℕ
  bos : ℕ
  pad : ℕ
  context : Option (List ℕ)
  context_block_ngram : ℤ
  block_list : Option (List (ℕ × List (List ℕ)))
  scores : Option (List (WithBot α))
  all_scores : List (List (WithBot α))
  bookkeep : List (List ℕ)
  outputs : List (List ℕ)
  finished : List (HypTail α)
  eos_top : Bool
  eos_top_ts : Option ℕ
  n_best_counter : ℕ
  partial_hyps : List (List ℕ)

/-- A logprob tensor `(rows × vocab)`. -/
abbrev Mat (α : Type) := List (List (WithBot α))

/-- `TreeSearch.__init__`: fresh state (context/block list unset). -/
def initTS {α : Type} [LinearOrderedCommRing α] (beam_size : ℕ)
    (block_ngram context_block_ngram : ℤ) (padding_token bos_token eos_token : ℕ)
    (min_length : ℕ) (length_penalty : α) : TS α where
  beam_size := beam_size
  length_penalty := length_penalty
  block_ngram := block_ngram
  min_length := min_length
  eos := eos_token
  bos := bos_token
  pad := padding_token
  context := none
  context_block_ngram := context_block_ngram
  block_list := none
  scores := none
  all_scores := [List.replicate beam_size 0]
  bookkeep := []
  outputs := [List.replicate beam_size bos_token]
  finished := []
  eos_top := false
  eos_top_ts := none
  n_best_counter := 0
  partial_hyps := List.replicate beam_size [bos_token]

/-- `TreeSearch._find_ngrams`: sliding windows of length `n`. -/
def findNgrams (l : List ℕ) (n : ℕ) : List (List ℕ) :=
  (List.range (l.length + 1 - n)).map (fun i => (l.drop i).take n)

/-- One row of `TreeSearch._block_ngrams`: forbid each token that historically
followed the current `n-1`-suffix of `hyp` inside `src`. -/
def blockNgramsRow {α : Type} [LinearOrderedCommRing α] (n : ℕ) (hyp src : List ℕ)
    (row : List (WithBot α)) : List (WithBot α) :=
  if hyp.length < n - 1 then row
  else
    (findNgrams src n).foldl
      (fun r g =>
        if n = 1 ∨ hyp.drop (hyp.length - (n - 1)) = g.dropLast then
          r.set (g.getLastD 0) ⊥
        else r)
      row

/-- `TreeSearch._block_ngrams` over all beam rows; `src = none` means
self-blocking from the row's own partial hypothesis. -/
def blockNgramsAll {α : Type} [LinearOrderedCommRing α] (n : ℕ)
    (hyps : List (List ℕ)) (src : Option (List ℕ)) (lp : Mat α) : Mat α :=
  lp.mapIdx fun b row =>
    match hyps[b]? with
    | some hyp => blockNgramsRow n hyp (src.getD hyp) row
    | none => row

/-- One row of `TreeSearch._block_block_list`. -/
def blockListRow {α : Type} [LinearOrderedCommRing α]
    (items : List (ℕ × List (List ℕ))) (hyp : List ℕ) (row : List (WithBot α)) :
    List (WithBot α) :=
  items.foldl
    (fun r ni =>
      ni.2.foldl
        (fun r2 g =>
          if ni.1 = 1 ∨ hyp.drop (hyp.length - (ni.1 - 1)) = g.dropLast then
            r2.set (g.getLastD 0) ⊥
          else r2)
        r)
    row

/-- `TreeSearch._block_block_list` (no-op when no block list is set). -/
def blockBlockList {α : Type} [LinearOrderedCommRing α]
    (bl : Option (List (ℕ × List (List ℕ)))) (hyps : List (List ℕ))
    (lp : Mat α) : Mat α :=
  match bl with
  | none => lp
  | some items =>
      lp.mapIdx fun b row =>
        match hyps[b]? with
        | some hyp => blockListRow items hyp row
        | none => row

/-- Minimum-length guard of `TreeSearch.advance`: while the current length is
below `min_length`, end-token log-probabilities are forced to `-inf` on every
row. -/
def minLenMask {α : Type} [LinearOrderedCommRing α] (s : TS α) (lp : Mat α) :
    Mat α :=
  if s.all_scores.length - 1 < s.min_length then
    lp.map (fun row => row.set s.eos ⊥)
  else lp

/-- Self n-gram blocking stage of `TreeSearch.advance`. -/
def selfBlockStage {α : Type} [LinearOrderedCommRing α] (s : TS α) (m : Mat α) :
    Mat α :=
  if 0 < s.block_ngram then
    blockNgramsAll s.block_ngram.toNat s.partial_hyps none m
  else m

/-- Context n-gram blocking stage of `TreeSearch.advance`. -/
def ctxBlockStage {α : Type} [LinearOrderedCommRing α] (s : TS α) (m : Mat α) :
    Mat α :=
  if 0 < s.context_block_ngram then
    match s.context with
    | some ctx =>
        blockNgramsAll s.context_block_ngram.toNat s.partial_hyps (some ctx) m
    | none => m
  else m

/-- The in-place rewriting `TreeSearch.advance` performs on the caller's
logprobs tensor before delegating to `select_paths`: minimum-length guard,
self n-gram blocking, block-list masking, context n-gram blocking (in source
order).  The source raises `ValueError` when context blocking is on without a
context; no claim exercises that usage error and it is modelled as a no-op. -/
def maskLogprobs {α : Type} [LinearOrderedCommRing α] (s : TS α) (lp : Mat α) :
    Mat α :=
  ctxBlockStage s
    (blockBlockList s.block_list s.partial_hyps
      (selfBlockStage s (minLenMask s lp)))

/-- Dead-slot penalty of `TreeSearch.advance`: a slot whose last output was the
end token has its running score forced to `-inf` so it is effectively not
re-selected as a parent. -/
def deadSlotPenalty {α : Type} [LinearOrderedCommRing α]
    (prior : List (WithBot α)) (lastOut : List ℕ) (eos : ℕ) :
    List (WithBot α) :=
  prior.mapIdx fun i v => if lastOut.getD i 0 = eos then ⊥ else v

/-- Type of `select_paths` implementations (self, logprobs, prior scores,
current length). -/
abbrev SelectFn (α : Type) :=
  TS α → Mat α → List (WithBot α) → ℕ → List ℕ × List ℕ × List (WithBot α)

/-- Broadcast addition `logprobs + prior_scores.unsqueeze(1).expand_as(...)`. -/
def addPrior {α : Type} [LinearOrderedCommRing α] (lp : Mat α)
    (prior : List (WithBot α)) : Mat α :=
  (lp.zip prior).map (fun rp => rp.1.map (· + rp.2))

/-- `BeamSearch.select_paths`: flatten `(row, token)` scores, take the global
top-`beam_size`, decode source slots and tokens by division/modulo. -/
def beamSelect {α : Type} [LinearOrderedCommRing α] : SelectFn α :=
  fun s logprobs prior _current_length =>
    let logprobs := if prior.length = 1 then logprobs.take 1 else logprobs
    let flat := (addPrior logprobs prior).flatten
    let voc := (logprobs.getD 0 []).length
    let idxs := topkIdx flat s.beam_size
    (idxs.map (· / voc), idxs.map (· % voc), topkVal flat s.beam_size)

/-- `GreedySearch.select_paths`: per-row arg-max
 (`torch.max` modelled with lowest-index tie-breaking). -/
def greedySelect {α : Type} [LinearOrderedCommRing α] : SelectFn α :=
  fun _s logprobs prior _current_length =>
    let tok_ids := logprobs.map (fun row => (topkIdx row 1).getD 0 0)
    let tok_scores := logprobs.map (fun row => (topkVal row 1).getD 0 ⊥)
    let best := (tok_scores.zip prior).map (fun p => p.1 + p.2)
    (List.range logprobs.length, tok_ids, best)

/-- The prior-score vector `advance` hands to `select_paths`: the running
scores (a fresh `zeros(1)` before the first step) after the dead-slot
penalty. -/
def priorOf {α : Type} [LinearOrderedCommRing α] (s : TS α) :
    List (WithBot α) :=
  deadSlotPenalty (s.scores.getD [(0 : WithBot α)]) (s.outputs.getLastD [])
    s.eos

/-- `TreeSearch.advance`, returning both the updated state and the content of
the caller's logprobs tensor after the call (the source rewrites that tensor
in place). -/
def advanceM {α : Type} [LinearOrderedCommRing α] (sel : SelectFn α) (s : TS α)
    (lp : Mat α) : TS α × Mat α :=
  let current_length := s.all_scores.length - 1
  let lpM := maskLogprobs s lp
  let sel_out := sel s lpM (priorOf s) current_length
  let hyp_ids := sel_out.1
  let tok_ids := sel_out.2.1
  let new_scores := sel_out.2.2
  let outputs' := s.outputs ++ [tok_ids]
  let newTails := (List.range s.beam_size).filterMap (fun h =>
    if tok_ids.getD h 0 = s.eos ∧ ¬ new_scores.getD h ⊥ ≤ ⊥ then
      some (⟨outputs'.length - 1, h, new_scores.getD h ⊥, s.eos⟩ : HypTail α)
    else none)
  (⟨s.beam_size, s.length_penalty, s.block_ngram, s.min_length, s.eos, s.bos,
    s.pad, s.context, s.context_block_ngram, s.block_list,
    some new_scores,
    s.all_scores ++ [new_scores],
    s.bookkeep ++ [hyp_ids],
    outputs',
    s.finished ++ newTails,
    (if tok_ids.getD 0 0 = s.eos then true else s.eos_top),
    (if tok_ids.getD 0 0 = s.eos then
        match s.eos_top_ts with
        | none => some (outputs'.length - 1)
        | some t => some t
      else s.eos_top_ts),
    s.n_best_counter + newTails.length,
    (List.range s.beam_size).map (fun i =>
      s.partial_hyps.getD (hyp_ids.getD i 0) [] ++ [tok_ids.getD i 0])⟩,
   lpM)

/-- `TreeSearch.advance` as a state transformer. -/
def advanceStep {α : Type} [LinearOrderedCommRing α] (sel : SelectFn α) (s : TS α)
    (lp : Mat α) : TS α :=
  (advanceM sel s lp).1

/-- `TreeSearch._get_hyp_from_finished`: walk backpointers from `timestep`
down to 0. -/
def getHypTails {α : Type} [LinearOrderedCommRing α] (s : TS α) :
    ℕ → ℕ → List (HypTail α)
  | 0, endback =>
      [⟨0, endback, (s.all_scores.getD 0 []).getD endback ⊥,
        (s.outputs.getD 0 []).getD endback 0⟩]
  | t + 1, endback =>
      (⟨t + 1, endback, (s.all_scores.getD (t + 1) []).getD endback ⊥,
        (s.outputs.getD (t + 1) []).getD endback 0⟩ : HypTail α) ::
        getHypTails s t ((s.bookkeep.getD t []).getD endback 0)

/-- `TreeSearch._get_pretty_hypothesis`: token ids in chronological order. -/
def prettyHyp {α : Type} [LinearOrderedCommRing α] (s : TS α) (t h : ℕ) :
    List ℕ :=
  ((getHypTails s t h).reverse).map (fun tl => tl.tokenid)

/-- Chronological token chain ending at slot `h` of timestep `t` (proof-side
companion of `prettyHyp`). -/
def chainToks (bk out : List (List ℕ)) : ℕ → ℕ → List ℕ
  | 0, h => [(out.getD 0 []).getD h 0]
  | t + 1, h =>
      chainToks bk out t ((bk.getD t []).getD h 0) ++
        [(out.getD (t + 1) []).getD h 0]

/-- The degenerate-decode path of `get_rescored_finished`: if nothing ever
finished, slot 0's last output is forced to the end token and recorded. -/
def forcedTS {α : Type} [LinearOrderedCommRing α] (s : TS α) : TS α :=
  let lastRow := s.outputs.getLastD []
  let newRow := lastRow.set 0 s.eos
  { s with
    outputs := s.outputs.dropLast ++ [newRow]
    finished := s.finished ++
      [⟨s.outputs.length - 1, 0, (s.all_scores.getLastD []).getD 0 ⊥,
        newRow.getD 0 0⟩] }

/-- Google-NMT length penalty `((1 + current_length) / 6) ** length_penalty`
(`math.pow`, so real exponentiation). -/
noncomputable def lenPenalty (p : ℝ) (current_length : ℕ) : ℝ :=
  ((1 + (current_length : ℝ)) / 6) ^ p

/-- Score adjustment of one finished record in `get_rescored_finished`
(`current_length = timestep + 1`). -/
noncomputable def rescoreTail (p : ℝ) (tl : HypTail ℝ) : HypTail ℝ :=
  { tl with score := tl.score.map (fun x => x / lenPenalty p (tl.timestep + 1)) }

/-- Ranking used by `sorted(..., key=attrgetter('score'), reverse=True)`. -/
def tailGE (a b : HypTail ℝ) : Prop := b.score ≤ a.score

noncomputable instance : DecidableRel tailGE := fun _ _ =>
  inferInstanceAs (Decidable (_ ≤ _))

instance : IsTotal (HypTail ℝ) tailGE := ⟨fun a b => le_total b.score a.score⟩

instance : IsTrans (HypTail ℝ) tailGE :=
  ⟨fun _ _ _ h1 h2 => le_trans h2 h1⟩

/-- `TreeSearch.get_rescored_finished`: synthesize a hypothesis if none
finished, rescore with the length penalty, sort descending (stably), truncate
to `n_best`, and reconstruct each hypothesis by walking backpointers. -/
noncomputable def getRescoredFinished (s : TS ℝ) (n_best : Option ℕ) :
    List (List ℕ × WithBot ℝ) :=
  let s1 := if s.finished.isEmpty then forcedTS s else s
  let rescored := s1.finished.map (rescoreTail s1.length_penalty)
  let srted := List.insertionSort tailGE rescored
  let srted2 :=
    match n_best with
    | some n => srted.take n
    | none => srted
  srted2.map (fun tl => (prettyHyp s1 tl.timestep tl.hypid, tl.score))



/-- The row collapse of `BeamSearch.select_paths`: with a single prior score
(step 0) only row 0 is used. -/
def collapseRows {α : Type} (lp : Mat α) (prior : List (WithBot α)) : Mat α :=
  if prior.length = 1 then lp.take 1 else lp

/-- The flattened score space of `BeamSearch.select_paths`:
`score[row][token] = logprob[row][token] + prior[row]`, viewed as one vector. -/
def beamFlat {α : Type} [LinearOrderedCommRing α] (lp : Mat α)
    (prior : List (WithBot α)) : List (WithBot α) :=
  (addPrior (collapseRows lp prior) prior).flatten

/-! ## `TorchGeneratorAgent._treesearch_factory` -/

/-- The relevant generation options consulted by `_treesearch_factory`. -/
structure GenOpts (α : Type) where
  inference : String
  beam_size : ℕ
  beam_min_length : ℕ
  beam_block_ngram : ℤ
  beam_context_block_ngram : ℤ
  beam_length_penalty : α
  topk : ℕ
  beam_delay : ℕ
  topp : α

/-- Which `TreeSearch` subclass `_treesearch_factory` instantiates. -/
inductive SearchKind where
  | greedy | beam | delayedbeam | constrainedbeam | topk | nucleus
deriving DecidableEq, Repr

/-- Constructor arguments produced by `_treesearch_factory`. -/
structure FactoryOut (α : Type) where
  kind : SearchKind
  beam_size : ℕ
  min_length : ℕ
  block_ngram : ℤ
  context_block_ngram : ℤ
  length_penalty : α
  padding_token : ℕ
  bos_token : ℕ
  eos_token : ℕ
  sample_k : Option ℕ
  delay : Option ℕ
  sample_p : Option α

/-- `TorchGeneratorAgent._treesearch_factory` (unknown methods raise
`ValueError`, modelled as `none`).  `nul`, `sta`, `en` are the agent's
`NULL_IDX`, `START_IDX`, `END_IDX` dictionary constants (external to the two
source files). -/
def treesearchFactoryOut {α : Type} (o : GenOpts α) (nul sta en : ℕ) :
    Option (FactoryOut α) :=
  if o.inference = "greedy" then
    some ⟨.greedy, o.beam_size, 0, o.beam_block_ngram,
      o.beam_context_block_ngram, o.beam_length_penalty, nul, sta, en,
      none, none, none⟩
  else if o.inference = "beam" then
    some ⟨.beam, o.beam_size, o.beam_min_length, o.beam_block_ngram,
      o.beam_context_block_ngram, o.beam_length_penalty, nul, sta, en,
      none, none, none⟩
  else if o.inference = "delayedbeam" then
    some ⟨.delayedbeam, o.beam_size, o.beam_min_length, o.beam_block_ngram,
      o.beam_context_block_ngram, o.beam_length_penalty, nul, sta, en,
      some o.topk, some o.beam_delay, none⟩
  else if o.inference = "constrainedbeam" then
    some ⟨.constrainedbeam, o.beam_size, o.beam_min_length, o.beam_block_ngram,
      o.beam_context_block_ngram, o.beam_length_penalty, nul, sta, en,
      none, none, none⟩
  else if o.inference = "topk" then
    some ⟨.topk, o.beam_size, o.beam_min_length, o.beam_block_ngram,
      o.beam_context_block_ngram, o.beam_length_penalty, nul, sta, en,
      some o.topk, none, none⟩
  else if o.inference = "nucleus" then
    some ⟨.nucleus, o.beam_size, o.beam_min_length, o.beam_block_ngram,
      o.beam_context_block_ngram, o.beam_length_penalty, nul, sta, en,
      none, none, some o.topp⟩
  else none

/-- A small concrete configuration used by witnesses: `pad = 0`, `bos = 1`,
`eos = 2`, no n-gram blocking, length penalty `0.65`. -/
def sampleTS (α : Type) [LinearOrderedCommRing α] (beam minLen : ℕ) : TS α :=
  initTS beam (-1) (-1) 0 1 2 minLen 1

/-- The spec's 2 x 3 toy logprob tensor (integer scores). -/
def mat23 : Mat ℤ :=
  [[((1 : ℤ) : WithBot ℤ), ((2 : ℤ) : WithBot ℤ), ((3 : ℤ) : WithBot ℤ)],
   [((0 : ℤ) : WithBot ℤ), ((5 : ℤ) : WithBot ℤ), ((1 : ℤ) : WithBot ℤ)]]

/-- Prior scores for the 2 x 3 toy case. -/
def pri2 : List (WithBot ℤ) := [((0 : ℤ) : WithBot ℤ), ((1 : ℤ) : WithBot ℤ)]

/-- A 3 x 3 logprob tensor whose row 0 is `[0, -5, -1]` (finite everywhere). -/
def cex7lp : Mat ℤ :=
  [[((0 : ℤ) : WithBot ℤ), ((-5 : ℤ) : WithBot ℤ), ((-1 : ℤ) : WithBot ℤ)],
   [((0 : ℤ) : WithBot ℤ), ((-5 : ℤ) : WithBot ℤ), ((-1 : ℤ) : WithBot ℤ)],
   [((0 : ℤ) : WithBot ℤ), ((-5 : ℤ) : WithBot ℤ), ((-1 : ℤ) : WithBot ℤ)]]

/-! ## `search.py`: lexically constrained beam search -/

/-- Model of the external `ConstraintState` contract (`next_tokens()`,
`advance(token)`, `bank`, `finished`, `tokens`).  `adv` maps a token to the
resulting state; tokens outside its table leave the state unchanged (the
contract never exercises those). -/
inductive CState where
  | mk (next : List ℕ) (bank : ℕ) (fin : Bool) (tokens : List ℕ)
      (adv : ℕ → Option CState)

/-- Legal continuation tokens (`state.next_tokens()`). -/
def CState.next_tokens : CState → List ℕ
  | .mk n _ _ _ _ => n

/-- Count of satisfied constraint tokens (`state.bank`). -/
def CState.bank : CState → ℕ
  | .mk _ b _ _ _ => b

/-- Whether all constraints are satisfied (`state.finished`). -/
def CState.finished : CState → Bool
  | .mk _ _ f _ _ => f

/-- The full constraint token list (`state.tokens`). -/
def CState.tokens : CState → List ℕ
  | .mk _ _ _ t _ => t

/-- `state.advance(token)`. -/
def CState.advance : CState → ℕ → CState
  | .mk n b f t a, tok =>
    match a tok with
    | some c2 => c2
    | none => .mk n b f t a

instance : Inhabited CState := ⟨.mk [] 0 true [] (fun _ => none)⟩

/-- One candidate of the per-sentence constrained step: the aligned entries of
`scores_buf`, `indices_buf`, `beams_buf`, `banks` and the advanced constraint
state (the source keeps these in parallel tensors/lists and always applies the
same permutation or mask to the first four; the state list is handled
separately where the source does). -/
structure Cand (α : Type) where
  score : WithBot α
  tokenId : ℕ
  beamId : ℕ
  bank : ℕ
  state : CState

instance {α : Type} : Inhabited (Cand α) := ⟨⟨⊥, 0, 0, 0, default⟩⟩

/-- `roll`: rotate a list right by one (`[0,1,2,3,4] -> [4,0,1,2,3]`). -/
def roll {β : Type} (t : List β) : List β :=
  match t.getLast? with
  | none => []
  | some x => x :: t.dropLast

/-- `torch.masked_select`: keep entries whose mask bit is true. -/
def maskSelect {β : Type} (mask : List Bool) (l : List β) : List β :=
  (mask.zip l).filterMap (fun p => if p.1 then some p.2 else none)

/-- Candidate identity `beam * (vocab_size + 1) + token` used for
deduplication. -/
def candId {α : Type} (sv : ℕ) (c : Cand α) : ℕ :=
  c.beamId * (sv + 1) + c.tokenId

/-- `uniques_mask = roll(ids) != ids`: true where an entry differs from its
cyclic predecessor. -/
def rollNeMask (ids : List ℕ) : List Bool :=
  (roll ids).zipWith (fun a b => a != b) ids

/-- The composite sort key
`(num_constraint_tokens - banks) * MAX_SCORE + scores` with
`MAX_SCORE = -100`. -/
def lcbsSortKey {α : Type} [LinearOrderedCommRing α] (T bank : ℕ)
    (score : WithBot α) : WithBot α :=
  ((((T : ℤ) - (bank : ℤ)) * (-100) : ℤ) : α) + score

/-- Sort key of a candidate. -/
def candKey {α : Type} [LinearOrderedCommRing α] (T : ℕ) (c : Cand α) :
    WithBot α :=
  lcbsSortKey T c.bank c.score

/-- Descending order on sort keys (deterministic, stable stand-in for
`torch.sort(..., descending=True)`, whose tie order is unspecified). -/
def lcbsSortRel {α : Type} [LinearOrderedCommRing α] (T : ℕ) (a b : Cand α) :
    Prop :=
  candKey T b ≤ candKey T a

instance {α : Type} [LinearOrderedCommRing α] (T : ℕ) :
    DecidableRel (lcbsSortRel (α := α) T) :=
  fun _ _ => inferInstanceAs (Decidable (_ ≤ _))

instance {α : Type} [LinearOrderedCommRing α] (T : ℕ) :
    IsTotal (Cand α) (lcbsSortRel T) :=
  ⟨fun a b => le_total (candKey T b) (candKey T a)⟩

instance {α : Type} [LinearOrderedCommRing α] (T : ℕ) :
    IsTrans (Cand α) (lcbsSortRel T) :=
  ⟨fun _ _ _ h1 h2 => le_trans h2 h1⟩

/-- STEP 4 of `step_sentence`: sort candidates by the composite key,
descending. -/
def lcbsSortStage {α : Type} [LinearOrderedCommRing α] (T : ℕ)
    (cs : List (Cand α)) : List (Cand α) :=
  List.insertionSort (lcbsSortRel T) cs

/-- STEP 5 of `step_sentence`: remove candidates equal (as
`(beam, token)` identities) to their cyclic predecessor in the sorted
order. -/
def lcbsDedup {α : Type} (sv : ℕ) (cs : List (Cand α)) : List (Cand α) :=
  maskSelect (rollNeMask (cs.map (candId sv))) cs

/-- The in-place `pop` loop that drops constraint states for masked-out
candidates: it walks `mask[1:]` and never consults `mask[0]`. -/
def statePopLoop (mask : List Bool) (states : List CState) : List CState :=
  go mask.tail 1 states
where
  go : List Bool → ℕ → List CState → List CState
    | [], _, st => st
    | m :: rest, i, st =>
      if m then go rest (i + 1) st else go rest i (st.eraseIdx i)

/-- STEP 6 of `step_sentence`: stripe values
`num_constraint_tokens - bank + offsets[cur_bank_count]` with
`offsets[c] = c * (len(banks) + 1)`; `cnt` starts at `-1`. -/
def stripesAux (T L : ℕ) : List ℕ → ℕ → ℤ → List ℤ
  | [], _, _ => []
  | b :: rest, cur, cnt =>
    let cnt2 : ℤ := if b = cur then cnt + 1 else 0
    ((T : ℤ) - (b : ℤ) + cnt2 * ((L : ℤ) + 1)) ::
      stripesAux T L rest b cnt2

/-- Stripe values for a (already sorted and deduplicated) bank sequence. -/
def stripesOf (T : ℕ) (banks : List ℕ) : List ℤ :=
  match banks with
  | [] => []
  | b0 :: _ => stripesAux T banks.length banks b0 (-1)

/-- Ascending order on stripe values (STEP 7). -/
def stripeRel {α : Type} (a b : ℤ × Cand α × CState) : Prop := a.1 ≤ b.1

instance {α : Type} : DecidableRel (stripeRel (α := α)) :=
  fun _ _ => inferInstanceAs (Decidable (_ ≤ _))

/-- `LexicallyConstrainedBeamSearch.step_sentence`: extend the candidate list
with every beam item's legal constraint continuations, advance the states,
sort by `(bank, score)` via the composite key, deduplicate, stripe
round-robin across banks, sort by stripes, and truncate the buffers to
`num_cands` (the returned state list is sorted but not truncated, as in the
source). -/
def stepSentence {α : Type} [LinearOrderedCommRing α] (sv num_cands step : ℕ)
    (lprobs : Mat α) (constraint_states : List CState)
    (beams_buf : List ℕ) (indices_buf : List ℕ)
    (scores_buf : List (WithBot α)) :
    List (WithBot α) × List ℕ × List ℕ × List CState :=
  -- STEP 2 (the loop breaks after the first beam item at step 0)
  let iter := if step = 0 then constraint_states.take 1 else constraint_states
  let ext := (List.range iter.length).foldl
    (fun (acc : List ℕ × List ℕ × List (WithBot α)) beamno =>
      let nt := (iter.getD beamno default).next_tokens
      if nt ≠ [] then
        (acc.1 ++ nt, acc.2.1 ++ List.replicate nt.length beamno,
          acc.2.2 ++ nt.map (fun t => (lprobs.getD beamno []).getD t ⊥))
      else acc)
    (indices_buf, beams_buf, scores_buf)
  let indices1 := ext.1
  let beams1 := ext.2.1
  let scores1 := ext.2.2
  -- the leftover loop variable `state` supplies `num_constraint_tokens`
  let stateLast := if step = 0 then constraint_states.headD default
    else constraint_states.getLastD default
  let T := stateLast.tokens.length
  -- STEP 3: advance all candidates, read off banks
  let cands_size := indices1.length
  let advStates := (List.range cands_size).map (fun i =>
    (constraint_states.getD (beams1.getD i 0) default).advance
      (indices1.getD i 0))
  let banks := advStates.map CState.bank
  let cands : List (Cand α) := (List.range cands_size).map (fun i =>
    ⟨scores1.getD i ⊥, indices1.getD i 0, beams1.getD i 0, banks.getD i 0,
      advStates.getD i default⟩)
  -- STEP 4: sort by the composite (bank, score) key
  let sorted := lcbsSortStage T cands
  -- STEP 5: deduplicate; states are pared by the separate pop loop
  let mask := rollNeMask (sorted.map (candId sv))
  let uniq := maskSelect mask sorted
  let states2 := statePopLoop mask (sorted.map Cand.state)
  -- STEP 6/7: stripes, then sort ascending by stripe
  let stripes := stripesOf T (uniq.map Cand.bank)
  let combined := (List.range uniq.length).map (fun i =>
    (stripes.getD i 0, uniq.getD i default, states2.getD i default))
  let sorted2 := List.insertionSort stripeRel combined
  -- STEP 8: truncate the three buffers (not the states)
  ((sorted2.map (fun p => p.2.1.score)).take num_cands,
   (sorted2.map (fun p => p.2.1.tokenId)).take num_cands,
   (sorted2.map (fun p => p.2.1.beamId)).take num_cands,
   sorted2.map (fun p => p.2.2))

/-- State of `LexicallyConstrainedBeamSearch` (dictionary ids and the
per-sentence, per-beam constraint states). -/
structure LCBS where
  pad : ℕ
  unk : ℕ
  eos : ℕ
  vocab_size : ℕ
  constraint_states : List (List CState)

/-- STEP 0 of `LexicallyConstrainedBeamSearch.step`: for `step > 0` (and a
nonempty constraint list), write `-inf` into the end-token cell of every
not-yet-finished beam item across the whole batch. -/
def lcbsSuppressEos {α : Type} [LinearOrderedCommRing α] (eos : ℕ)
    (css : List (List CState)) (step : ℕ) (lprobs : List (Mat α)) :
    List (Mat α) :=
  if css.isEmpty = false ∧ 0 < step then
    lprobs.mapIdx (fun sent m => m.mapIdx (fun beamno row =>
      match (css.getD sent [])[beamno]? with
      | some st => if st.finished then row else row.set eos ⊥
      | none => row))
  else lprobs

/-- The scored tensor read by every candidate-generation path of
`LexicallyConstrainedBeamSearch.step`: end-token suppression followed by the
step-0 row collapse or the cumulative-score addition. -/
def lcbsScored {α : Type} [LinearOrderedCommRing α] (eos : ℕ)
    (css : List (List CState)) (step : ℕ) (lprobs : List (Mat α))
    (scores : Option (List (List (List (WithBot α))))) : List (Mat α) :=
  if step = 0 then
    (lcbsSuppressEos eos css step lprobs).map (fun m => m.take 1)
  else
    (lcbsSuppressEos eos css step lprobs).mapIdx (fun sent m =>
      m.mapIdx (fun b row =>
        row.map (· + (((scores.getD []).getD sent []).getD b []).getD
          (step - 1) ⊥)))

/-- `LexicallyConstrainedBeamSearch.step`: suppression, step-0 collapse or
cumulative-score addition, per-sentence global top-`num_cands`, short circuit
without constraints, per-row top-1 extension, and per-sentence
`step_sentence`. -/
def lcbsStep {α : Type} [LinearOrderedCommRing α] (S : LCBS) (step : ℕ)
    (lprobs : List (Mat α))
    (scores : Option (List (List (List (WithBot α))))) :
    LCBS × (List (List (WithBot α)) × List (List ℕ) × List (List ℕ)) :=
  let batch_size := lprobs.length
  let beam_size := (lprobs.getD 0 []).length
  let vocab_size := ((lprobs.getD 0 []).getD 0 []).length
  let num_cands := min (beam_size * 2) (beam_size * vocab_size - 1)
  let constraint_states := S.constraint_states
  let lp2 := lcbsScored S.eos constraint_states step lprobs scores
  let top := lp2.map (fun m =>
    (topkVal m.flatten num_cands,
     (topkIdx m.flatten num_cands).map (· / vocab_size),
     (topkIdx m.flatten num_cands).map (· % vocab_size)))
  let scores_bufs := top.map (fun t => t.1)
  let beams_bufs := top.map (fun t => t.2.1)
  let indices_bufs := top.map (fun t => t.2.2)
  if constraint_states.isEmpty then (S, (scores_bufs, indices_bufs, beams_bufs))
  else
    let scores_bufs2 := if 0 < step then
        (List.range batch_size).map (fun sent =>
          scores_bufs.getD sent [] ++
            (lp2.getD sent []).map (fun row => (topkVal row 1).getD 0 ⊥))
      else scores_bufs
    let indices_bufs2 := if 0 < step then
        (List.range batch_size).map (fun sent =>
          indices_bufs.getD sent [] ++
            (lp2.getD sent []).map (fun row => (topkIdx row 1).getD 0 0))
      else indices_bufs
    let beams_bufs2 := if 0 < step then
        (List.range batch_size).map (fun sent =>
          beams_bufs.getD sent [] ++ List.range beam_size)
      else beams_bufs
    let results := (List.range batch_size).map (fun sentno =>
      stepSentence S.vocab_size num_cands step (lp2.getD sentno [])
        (constraint_states.getD sentno [])
        (beams_bufs2.getD sentno []) (indices_bufs2.getD sentno [])
        (scores_bufs2.getD sentno []))
    ({ S with constraint_states := results.map (fun r => r.2.2.2) },
     (results.map (fun r => r.1), results.map (fun r => r.2.1),
      results.map (fun r => r.2.2.1)))

/-- Counterexample candidates for the bank ranking: a constraint-satisfying
candidate with score `-150` (bank 1) and a non-satisfying one with score
`-10` (bank 0). -/
def cexC2a : Cand ℤ := ⟨((-150 : ℤ) : WithBot ℤ), 7, 0, 1, default⟩

/-- See `cexC2a`. -/
def cexC2b : Cand ℤ := ⟨((-10 : ℤ) : WithBot ℤ), 8, 1, 0, default⟩

/-- A finished constraint state (bank 1, all tokens consumed). -/
def cstateGoal : CState := .mk [] 1 true [1] (fun _ => none)

/-- An unfinished constraint state with the single-token constraint `[1]`,
bank 0: advancing on token `1` completes the constraint. -/
def cstateEx : CState :=
  .mk [1] 0 false [1] (fun t => if t = 1 then some cstateGoal else none)

/-- A one-sentence, one-beam `LexicallyConstrainedBeamSearch` over a
three-token vocabulary with `eos = 2` and the unfinished constraint state. -/
def lcbsEx : LCBS := ⟨0, 3, 2, 3, [[cstateEx]]⟩

/-- Log-probabilities for the C3 counterexample: the end token (id 2) has the
best score. -/
def lpEx : List (Mat ℤ) :=
  [[[((5 : ℤ) : WithBot ℤ), ((5 : ℤ) : WithBot ℤ), ((7 : ℤ) : WithBot ℤ)]]]

/-- Identity-run contiguity: whenever two positions carry the same value,
every position between them carries it too (duplicate identities form
contiguous runs). -/
def Contig (l : List ℕ) : Prop :=
  ∀ k < l.length, ∀ j ≤ k, ∀ i ≤ j, l.getD i 0 = l.getD k 0 →
    l.getD j 0 = l.getD i 0

instance (l : List ℕ) : Decidable (Contig l) := by
  unfold Contig; infer_instance

/-- Reference adjacent-deduplication: drop a candidate exactly when its
identity equals that of its predecessor in the *original* list (`prev` is
the predecessor's identity). This is what the roll-mask computes on the
non-wrap positions. -/
def adjDedup {α : Type} (sv : ℕ) (prev : ℕ) : List (Cand α) → List (Cand α)
  | [] => []
  | c :: rest =>
    (if candId sv c = prev then [] else [c]) ++ adjDedup sv (candId sv c) rest

/-- Witness candidates for the deduplication claim (vocab sentinel
`sv = 3`): identities `5, 3, 3`. -/
def cW0 : Cand ℤ := ⟨((3 : ℤ) : WithBot ℤ), 1, 1, 0, default⟩

/-- See `cW0`. -/
def cW1 : Cand ℤ := ⟨((2 : ℤ) : WithBot ℤ), 3, 0, 0, default⟩

/-- See `cW0`. -/
def cW2 : Cand ℤ := ⟨((2 : ℤ) : WithBot ℤ), 3, 0, 1, default⟩

/-- See `cW0`. -/
def csW : List (Cand ℤ) := [cW0, cW1, cW2]

/-- `ConstrainedBeamSearch.select_paths` (bsz = 1): run the inner
`LexicallyConstrainedBeamSearch` step, subtract the number of sentences the
finalize block just finalized (`len(finalized_sents)`) from
`num_remaining_sent`, then run the two fatal assertions in source order
(`assert self.num_remaining_sent >= 0`, `assert step < self.max_len`). -/
def cbsSelectPaths {α : Type} [LinearOrderedCommRing α] (S : LCBS)
    (num_remaining_sent : ℤ) (nfinalized : ℕ) (max_len step : ℕ)
    (lprobs : List (Mat α))
    (scores : Option (List (List (List (WithBot α))))) :
    Except String
      (LCBS × (List (List (WithBot α)) × List (List ℕ) × List (List ℕ))) :=
  let r := lcbsStep S step lprobs scores
  let num2 := num_remaining_sent - (nfinalized : ℤ)
  if 0 ≤ num2 then
    if step < max_len then Except.ok r
    else Except.error "assert step < self.max_len"
  else Except.error "assert self.num_remaining_sent >= 0"

/-- `ConstrainedBeamSearch.is_finished`: assert
`finalized_sent_len <= beam_size`, then finished iff the sentence has
`beam_size` finalized hypotheses or the step reached `max_len`. -/
def cbsIsFinished (step max_len finalized_sent_len beam_size : ℕ) :
    Except String Bool :=
  if finalized_sent_len ≤ beam_size then
    Except.ok (finalized_sent_len == beam_size || step == max_len)
  else Except.error "assert finalized_sent_len <= beam_size"

/-- Inductive invariant of the `TreeSearch` state machine under the Beam
policy: shape facts plus the end-token bookkeeping.  `chainToks` counts refer
to the full reconstructed token chain (timesteps `0..t`).  The three semantic
conjuncts: every finished record reconstructs to a chain carrying the end
token exactly once; every live (non `-inf`) slot's chain carries the end
token exactly once if its last token is the end token and never otherwise;
and while nothing has finished, slot 0's chain is end-token free. -/
def TSInv {α : Type} [LinearOrderedCommRing α] (beam V : ℕ) (s : TS α) :
    Prop :=
  s.beam_size = beam ∧
  1 ≤ s.outputs.length ∧
  s.bookkeep.length + 1 = s.outputs.length ∧
  (s.outputs.getLastD []).length = beam ∧
  ((s.scores.getD [(0 : WithBot α)]).length = 1 ∨
    (s.scores.getD [(0 : WithBot α)]).length = beam) ∧
  (∀ tl ∈ s.finished, tl.timestep + 1 ≤ s.outputs.length ∧
    (chainToks s.bookkeep s.outputs tl.timestep tl.hypid).count s.eos = 1) ∧
  (∀ h, ¬ (s.scores.getD [(0 : WithBot α)]).getD h ⊥ ≤ ⊥ →
    (chainToks s.bookkeep s.outputs (s.outputs.length - 1) h).count s.eos =
      (if (s.outputs.getLastD []).getD h 0 = s.eos then 1 else 0)) ∧
  (s.finished = [] →
    (chainToks s.bookkeep s.outputs (s.outputs.length - 1) 0).count s.eos = 0)

/-! ## END OF DEFINITIONS: lemmas and claim theorems follow -/

section TopkLemmas

variable {α : Type} [LinearOrderedCommRing α]

theorem mem_idxList {v : List (WithBot α)} {p : ℕ × WithBot α} :
    p ∈ idxList v ↔ p.1 < v.length ∧ p.2 = v.getD p.1 ⊥ := by
  cases p with
  | mk i x =>
    simp only [idxList, List.mem_map, List.mem_range, Prod.mk.injEq]
    constructor
    · rintro ⟨j, hj, rfl, rfl⟩
      exact ⟨hj, rfl⟩
    · rintro ⟨hi, rfl⟩
      exact ⟨i, hi, rfl, rfl⟩

theorem length_idxList (v : List (WithBot α)) : (idxList v).length = v.length := by
  simp [idxList]

theorem perm_rankedIdx (v : List (WithBot α)) : List.Perm (rankedIdx v) (idxList v) :=
  List.perm_insertionSort _ _

theorem length_rankedIdx (v : List (WithBot α)) :
    (rankedIdx v).length = v.length := by
  rw [(perm_rankedIdx v).length_eq, length_idxList]

theorem mem_rankedIdx {v : List (WithBot α)} {p : ℕ × WithBot α} :
    p ∈ rankedIdx v ↔ p.1 < v.length ∧ p.2 = v.getD p.1 ⊥ := by
  rw [(perm_rankedIdx v).mem_iff, mem_idxList]

theorem sorted_rankedIdx (v : List (WithBot α)) :
    List.Sorted rankRel (rankedIdx v) :=
  List.sorted_insertionSort _ _

theorem rankedIdx_rel {v : List (WithBot α)} {i j : ℕ}
    (hij : i ≤ j) (hj : j < (rankedIdx v).length) :
    rankRel ((rankedIdx v).get ⟨i, lt_of_le_of_lt hij hj⟩)
      ((rankedIdx v).get ⟨j, hj⟩) := by
  rcases Nat.lt_or_ge i j with h | h
  · exact List.pairwise_iff_get.mp (sorted_rankedIdx v) ⟨i, _⟩ ⟨j, _⟩ h
  · have : i = j := le_antisymm hij h
    subst this
    exact Or.inr ⟨rfl, le_refl _⟩

theorem snd_rankedIdx {v : List (WithBot α)} {p : ℕ × WithBot α}
    (hp : p ∈ rankedIdx v) : p.2 = v.getD p.1 ⊥ :=
  (mem_rankedIdx.mp hp).2

/-- Every selected index is a valid index of `v`. -/
theorem topkIdx_lt_length {v : List (WithBot α)} {k j : ℕ}
    (hj : j ∈ topkIdx v k) : j < v.length := by
  simp only [topkIdx, List.mem_map] at hj
  obtain ⟨p, hp, rfl⟩ := hj
  exact (mem_rankedIdx.mp (List.mem_of_mem_take hp)).1

theorem topkIdx_length {v : List (WithBot α)} {k : ℕ} :
    (topkIdx v k).length = min k v.length := by
  simp [topkIdx, List.length_take, length_rankedIdx]

theorem topkVal_length {v : List (WithBot α)} {k : ℕ} :
    (topkVal v k).length = min k v.length := by
  simp [topkVal, List.length_take, length_rankedIdx]

/-- The values are the values of the selected indices. -/
theorem topkVal_eq_map {v : List (WithBot α)} {k : ℕ} :
    topkVal v k = (topkIdx v k).map (fun j => v.getD j ⊥) := by
  simp only [topkVal, topkIdx, List.map_map]
  apply List.map_congr_left
  intro p hp
  exact snd_rankedIdx (List.mem_of_mem_take hp)

theorem topkIdx_nodup (v : List (WithBot α)) (k : ℕ) :
    (topkIdx v k).Nodup := by
  have hnd : (idxList v).Nodup := by
    apply List.Nodup.map
    · intro a b hab
      simpa using congrArg Prod.fst hab
    · exact List.nodup_range _
  have hnd2 : (rankedIdx v).Nodup := ((perm_rankedIdx v).nodup_iff).mpr hnd
  have hnd3 : ((rankedIdx v).take k).Nodup := hnd2.sublist (List.take_sublist _ _)
  apply hnd3.map_on
  intro a ha b hb hab
  have h1 := snd_rankedIdx (List.mem_of_mem_take ha)
  have h2 := snd_rankedIdx (List.mem_of_mem_take hb)
  have : a.1 = b.1 := hab
  calc a = (a.1, a.2) := rfl
    _ = (b.1, b.2) := by rw [this, h1, h2, this]
    _ = b := rfl

end TopkLemmas

section TopkKeyLemmas

variable {α : Type} [LinearOrderedCommRing α]

/-- If `p` made the top-`k` cut and `q` strictly precedes `p` in the ranking,
then `q` also made the cut. -/
theorem mem_take_of_strict {v : List (WithBot α)} {k : ℕ} {p q : ℕ × WithBot α}
    (hp : p ∈ (rankedIdx v).take k) (hq : q ∈ rankedIdx v)
    (hstr : ¬ rankRel p q) : q ∈ (rankedIdx v).take k := by
  rw [List.mem_take_iff_getElem] at hp ⊢
  obtain ⟨i, hi, hpi⟩ := hp
  obtain ⟨jq, hjq, hqj⟩ := List.mem_iff_getElem.mp hq
  refine ⟨jq, ?_, hqj⟩
  have hjlt : jq < i := by
    by_contra hge
    push_neg at hge
    have := rankedIdx_rel (v := v) hge (by simpa using hjq)
    rw [List.get_eq_getElem, List.get_eq_getElem] at this
    simp only [hpi, hqj] at this
    exact hstr this
  omega

/-- A selected index whose value is `⊥` can only appear because fewer than `k`
entries precede it: all lower indices are selected too, hence `j < k`. -/
theorem topkIdx_lt_of_bot {v : List (WithBot α)} {k j : ℕ}
    (hj : j ∈ topkIdx v k) (hb : v.getD j ⊥ = ⊥) : j < k := by
  classical
  have hjlen : j < v.length := topkIdx_lt_length hj
  simp only [topkIdx, List.mem_map] at hj
  obtain ⟨p, hp, hp1⟩ := hj
  have hp2 : p.2 = ⊥ := by
    rw [snd_rankedIdx (List.mem_of_mem_take hp), hp1, hb]
  have hpair : p = (j, (⊥ : WithBot α)) := by
    calc p = (p.1, p.2) := rfl
      _ = (j, ⊥) := by rw [hp1, hp2]
  -- every pair with index ≤ j is in the top-k prefix
  have hmem : ∀ m, m ≤ j → (m, v.getD m ⊥) ∈ (rankedIdx v).take k := by
    intro m hm
    rcases eq_or_lt_of_le hm with rfl | hlt
    · rw [hb, ← hpair]; exact hp
    · apply mem_take_of_strict hp (q := (m, v.getD m ⊥))
      · exact mem_rankedIdx.mpr ⟨lt_of_le_of_lt hm hjlen, rfl⟩
      · rw [hpair]
        rintro (h | ⟨_, h⟩)
        · exact not_lt_bot h
        · omega
  -- counting: j+1 distinct pairs fit in a list of length ≤ k
  have hcard : j + 1 ≤ k := by
    have hinj : Set.InjOn (fun m => (m, v.getD m ⊥)) (Finset.range (j + 1)) := by
      intro a _ b _ hab
      simpa using congrArg Prod.fst hab
    have hmaps : ∀ m ∈ Finset.range (j + 1),
        (m, v.getD m ⊥) ∈ ((rankedIdx v).take k).toFinset := by
      intro m hm
      rw [List.mem_toFinset]
      exact hmem m (Nat.lt_succ_iff.mp (Finset.mem_range.mp hm))
    have h1 := Finset.card_le_card_of_injOn _ hmaps hinj
    rw [Finset.card_range] at h1
    calc j + 1 ≤ ((rankedIdx v).take k).toFinset.card := h1
      _ ≤ ((rankedIdx v).take k).length := List.toFinset_card_le _
      _ ≤ k := List.length_take_le _ _
  omega

/-- Selected entries dominate unselected entries. -/
theorem topkIdx_dominates {v : List (WithBot α)} {k m j : ℕ}
    (hm : m < v.length) (hm2 : m ∉ topkIdx v k) (hj : j ∈ topkIdx v k) :
    v.getD m ⊥ ≤ v.getD j ⊥ := by
  simp only [topkIdx, List.mem_map] at hj
  obtain ⟨p, hp, hp1⟩ := hj
  have hq : (m, v.getD m ⊥) ∈ rankedIdx v := mem_rankedIdx.mpr ⟨hm, rfl⟩
  have hnot : (m, v.getD m ⊥) ∉ (rankedIdx v).take k := by
    intro hmem
    exact hm2 (by simpa only [topkIdx, List.mem_map] using ⟨_, hmem, rfl⟩)
  rw [List.mem_take_iff_getElem] at hp
  obtain ⟨i, hi, hpi⟩ := hp
  obtain ⟨jq, hjq, hqj⟩ := List.mem_iff_getElem.mp hq
  have hik : ¬ jq < k := by
    intro hlt
    apply hnot
    rw [List.mem_take_iff_getElem]
    exact ⟨jq, by omega, hqj⟩
  have hrel := rankedIdx_rel (v := v) (i := i) (j := jq)
    (by omega) (by simpa using hjq)
  rw [List.get_eq_getElem, List.get_eq_getElem] at hrel
  simp only [hpi, hqj] at hrel
  have hpv : p.2 = v.getD p.1 ⊥ := snd_rankedIdx (List.mem_of_mem_take
    (by rw [List.mem_take_iff_getElem]; exact ⟨i, hi, hpi⟩))
  rcases hrel with h | ⟨h, _⟩
  · rw [← hp1, ← hpv]; exact le_of_lt h
  · rw [← hp1, ← hpv, h]

/-- The very first selected index has a strictly larger value than every
smaller index (`torch.topk`'s best element, lowest index among ties). -/
theorem topkIdx_head_strict {v : List (WithBot α)} {k j0 : ℕ} {rest : List ℕ}
    (h : topkIdx v k = j0 :: rest) {m : ℕ} (hm : m < j0) :
    v.getD m ⊥ < v.getD j0 ⊥ := by
  have hj0 : j0 ∈ topkIdx v k := by rw [h]; exact List.mem_cons_self _ _
  have hj0len : j0 < v.length := topkIdx_lt_length hj0
  simp only [topkIdx] at h
  -- peel the head of the ranked list
  obtain ⟨p0, rs, hR⟩ : ∃ p0 rs, rankedIdx v = p0 :: rs := by
    cases hRc : rankedIdx v with
    | nil => rw [hRc] at h; cases k <;> simp at h
    | cons a b => exact ⟨a, b, rfl⟩
  have hp01 : p0.1 = j0 := by
    rw [hR] at h
    cases k with
    | zero => simp at h
    | succ k => simpa using congrArg (fun l => l.headD 0) h
  have hp0v : p0.2 = v.getD p0.1 ⊥ := snd_rankedIdx (by
    rw [hR]; exact List.mem_cons_self _ _)
  have hq : (m, v.getD m ⊥) ∈ rankedIdx v :=
    mem_rankedIdx.mpr ⟨lt_trans hm hj0len, rfl⟩
  rw [hR] at hq
  rcases List.mem_cons.mp hq with heq | hqrs
  · have : m = j0 := by rw [← hp01, ← heq]
    omega
  · have hsort := sorted_rankedIdx v
    rw [hR] at hsort
    have hrel := List.rel_of_sorted_cons hsort _ hqrs
    rcases hrel with hlt | ⟨_, hle⟩
    · rwa [hp0v, hp01] at hlt
    · simp only [hp01] at hle
      omega

theorem idxList_map_snd (v : List (WithBot α)) :
    (idxList v).map Prod.snd = v := by
  apply List.ext_getElem
  · simp [idxList]
  · intro i h1 h2
    simp only [idxList, List.map_map, List.getElem_map, List.getElem_range,
      Function.comp]
    exact (List.getD_eq_getElem v ⊥ h2).symm ▸ rfl

/-- The top-k values are exactly the first `k` entries of the descending sort
of the flat score vector. -/
theorem topkVal_eq_take_sortDesc {v : List (WithBot α)} {k : ℕ} :
    topkVal v k = (sortDesc v).take k := by
  have h1 : List.Perm ((rankedIdx v).map Prod.snd) ((idxList v).map Prod.snd) :=
    (perm_rankedIdx v).map _
  rw [idxList_map_snd] at h1
  have hperm : List.Perm ((rankedIdx v).map Prod.snd) (sortDesc v) :=
    h1.trans (List.perm_insertionSort _ _).symm
  have hs1 : List.Sorted (α := WithBot α) (· ≥ ·)
      ((rankedIdx v).map Prod.snd) := by
    refine List.Pairwise.map Prod.snd ?_ (sorted_rankedIdx v)
    intro a b hab
    rcases hab with h | ⟨h, _⟩
    · exact le_of_lt h
    · exact le_of_eq h.symm
  have hs2 : List.Sorted (α := WithBot α) (· ≥ ·) (sortDesc v) :=
    List.sorted_insertionSort _ _
  have heq : (rankedIdx v).map Prod.snd = sortDesc v :=
    List.eq_of_perm_of_sorted hperm hs1 hs2
  rw [topkVal, List.map_take, heq]

end TopkKeyLemmas

/-! ## Flattening lemmas (`view(-1)` over a uniform `rows × V` tensor) -/

section FlattenLemmas

variable {α : Type} [LinearOrderedCommRing α]

theorem flatten_length_uniform {V : ℕ} :
    ∀ (ls : Mat α), (∀ r ∈ ls, r.length = V) →
      ls.flatten.length = ls.length * V
  | [], _ => by simp
  | r :: tl, h => by
    have hr : r.length = V := h r (List.mem_cons_self _ _)
    have ih := flatten_length_uniform tl (fun x hx => h x (List.mem_cons_of_mem _ hx))
    simp only [List.flatten_cons, List.length_append, ih, hr, List.length_cons]
    ring

theorem flatten_getD_uniform {V : ℕ} (hV : 0 < V) :
    ∀ (ls : Mat α) (j : ℕ), j < ls.length * V →
      (∀ r ∈ ls, r.length = V) →
      ls.flatten.getD j ⊥ = (ls.getD (j / V) []).getD (j % V) ⊥
  | [], j, hj, _ => by simp at hj
  | r :: tl, j, hj, h => by
    have hr : r.length = V := h r (List.mem_cons_self _ _)
    rcases Nat.lt_or_ge j V with hlt | hge
    · rw [List.flatten_cons, List.getD_append _ _ _ _ (by omega),
        Nat.div_eq_of_lt hlt, Nat.mod_eq_of_lt hlt]
      rfl
    · obtain ⟨m, rfl⟩ : ∃ m, j = m + V := ⟨j - V, by omega⟩
      rw [List.flatten_cons, List.getD_append_right _ _ _ _ (by omega)]
      have hm : m < tl.length * V := by
        simp only [List.length_cons] at hj
        have : (tl.length + 1) * V = tl.length * V + V := by ring
        omega
      have ih := flatten_getD_uniform hV tl m hm
        (fun x hx => h x (List.mem_cons_of_mem _ hx))
      rw [hr, Nat.add_sub_cancel, ih, Nat.add_div_right _ hV, Nat.add_mod_right]
      rfl

theorem addPrior_length (lp : Mat α) (prior : List (WithBot α)) :
    (addPrior lp prior).length = min lp.length prior.length := by
  simp [addPrior]

theorem addPrior_rows_length {lp : Mat α} {prior : List (WithBot α)} {V : ℕ}
    (h : ∀ r ∈ lp, r.length = V) :
    ∀ r ∈ addPrior lp prior, r.length = V := by
  intro r hr
  simp only [addPrior, List.mem_map] at hr
  obtain ⟨rp, hrp, rfl⟩ := hr
  simp only [List.length_map]
  exact h rp.1 (List.mem_zip hrp).1

theorem addPrior_getD {lp : Mat α} {prior : List (WithBot α)} {V r c : ℕ}
    (h : ∀ row ∈ lp, row.length = V)
    (hr : r < min lp.length prior.length) (hc : c < V) :
    ((addPrior lp prior).getD r []).getD c ⊥ =
      (lp.getD r []).getD c ⊥ + prior.getD r ⊥ := by
  have hrz : r < (lp.zip prior).length := by simp [List.length_zip]; omega
  have hrl : r < lp.length := by omega
  have hrp : r < prior.length := by omega
  have h1 : (addPrior lp prior).getD r [] = (lp.zip prior)[r].1.map
      (· + (lp.zip prior)[r].2) := by
    rw [List.getD_eq_getElem _ _ (by simpa [addPrior_length] using hr)]
    simp [addPrior]
  have hcl : c < lp[r].length := by
    rw [h lp[r] (List.getElem_mem hrl)]; exact hc
  rw [h1, List.getElem_zip, List.getD_eq_getElem _ _ (by simpa using hcl),
    List.getElem_map, List.getD_eq_getElem lp _ hrl,
    List.getD_eq_getElem _ _ hcl, List.getD_eq_getElem _ _ hrp]

end FlattenLemmas

/-! ## Masking-stage lemmas -/

section MaskLemmas

variable {α : Type} [LinearOrderedCommRing α]

theorem getD_take_one {β : Type} (l : List β) (d : β) :
    (l.take 1).getD 0 d = l.getD 0 d := by
  cases l <;> simp

theorem getD_set_bot (l : List (WithBot α)) (t j : ℕ) :
    ((l.set t ⊥).getD j ⊥ = l.getD j ⊥) ∨ ((l.set t ⊥).getD j ⊥ = ⊥) := by
  rcases Nat.lt_or_ge j l.length with hj | hj
  · by_cases h : t = j
    · subst h
      right
      rw [List.getD_eq_getElem _ _ (by simpa using hj)]
      exact List.getElem_set_self _
    · left
      rw [List.getD_eq_getElem _ _ (by simpa using hj),
        List.getD_eq_getElem _ _ hj]
      exact List.getElem_set_ne h _
  · right
    rw [List.getD_eq_default]
    simpa using hj

theorem set_bot_getD_self (l : List (WithBot α)) (t : ℕ) :
    (l.set t ⊥).getD t ⊥ = ⊥ := by
  rcases Nat.lt_or_ge t l.length with h | h
  · rw [List.getD_eq_getElem _ _ (by simpa using h)]
    exact List.getElem_set_self _
  · apply List.getD_eq_default
    simpa using h

theorem getD_set_bot_pres {l : List (WithBot α)} {t j : ℕ}
    (h : l.getD j ⊥ = ⊥) : (l.set t ⊥).getD j ⊥ = ⊥ := by
  rcases getD_set_bot l t j with h2 | h2
  · rw [h2, h]
  · exact h2

theorem foldl_getD_or {β : Type} (f : List (WithBot α) → β → List (WithBot α))
    (hf : ∀ r g j, ((f r g).getD j ⊥ = r.getD j ⊥) ∨ ((f r g).getD j ⊥ = ⊥)) :
    ∀ (gs : List β) (r : List (WithBot α)) (j : ℕ),
      ((gs.foldl f r).getD j ⊥ = r.getD j ⊥) ∨ ((gs.foldl f r).getD j ⊥ = ⊥)
  | [], _, _ => Or.inl rfl
  | g :: gs, r, j => by
    rw [List.foldl_cons]
    rcases foldl_getD_or f hf gs (f r g) j with h | h
    · rcases hf r g j with h2 | h2
      · exact Or.inl (by rw [h, h2])
      · exact Or.inr (by rw [h, h2])
    · exact Or.inr h

theorem blockNgramsRow_getD_or (n : ℕ) (hyp src : List ℕ)
    (row : List (WithBot α)) (j : ℕ) :
    ((blockNgramsRow n hyp src row).getD j ⊥ = row.getD j ⊥) ∨
      ((blockNgramsRow n hyp src row).getD j ⊥ = ⊥) := by
  unfold blockNgramsRow
  split
  · exact Or.inl rfl
  · apply foldl_getD_or
    intro r g j2
    split
    · exact getD_set_bot r _ j2
    · exact Or.inl rfl

theorem blockListRow_getD_or (items : List (ℕ × List (List ℕ)))
    (hyp : List ℕ) (row : List (WithBot α)) (j : ℕ) :
    ((blockListRow items hyp row).getD j ⊥ = row.getD j ⊥) ∨
      ((blockListRow items hyp row).getD j ⊥ = ⊥) := by
  unfold blockListRow
  apply foldl_getD_or
  intro r ni j2
  apply foldl_getD_or
  intro r2 g j3
  split
  · exact getD_set_bot r2 _ j3
  · exact Or.inl rfl

theorem mapIdx_row_getD {β : Type} (lp : List (List β)) (d : List β)
    (f : ℕ → List β → List β) (i : ℕ) (hi : i < lp.length) :
    (lp.mapIdx f).getD i d = f i (lp.getD i d) := by
  rw [List.getD_eq_getElem _ _ (by simpa using hi),
    List.getD_eq_getElem _ _ hi, List.getElem_mapIdx]

/-- Each cell of a blocking stage is either the original cell or `-inf`. -/
theorem blockNgramsAll_getD_or (n : ℕ) (hyps : List (List ℕ))
    (src : Option (List ℕ)) (lp : Mat α) (i j : ℕ) :
    (((blockNgramsAll n hyps src lp).getD i []).getD j ⊥ =
        ((lp.getD i []).getD j ⊥)) ∨
      (((blockNgramsAll n hyps src lp).getD i []).getD j ⊥ = ⊥) := by
  rcases Nat.lt_or_ge i lp.length with hi | hi
  · rw [blockNgramsAll, mapIdx_row_getD _ _ _ _ hi]
    cases hyps[i]? with
    | none => exact Or.inl rfl
    | some hyp => exact blockNgramsRow_getD_or n hyp _ _ j
  · left
    have h1 : (blockNgramsAll n hyps src lp).getD i ([] : List (WithBot α)) = [] := by
      apply List.getD_eq_default
      simpa [blockNgramsAll] using hi
    have h2 : lp.getD i ([] : List (WithBot α)) = [] := List.getD_eq_default _ _ hi
    rw [h1, h2]

theorem blockBlockList_getD_or (bl : Option (List (ℕ × List (List ℕ))))
    (hyps : List (List ℕ)) (lp : Mat α) (i j : ℕ) :
    (((blockBlockList bl hyps lp).getD i []).getD j ⊥ =
        ((lp.getD i []).getD j ⊥)) ∨
      (((blockBlockList bl hyps lp).getD i []).getD j ⊥ = ⊥) := by
  cases bl with
  | none => exact Or.inl rfl
  | some items =>
    rcases Nat.lt_or_ge i lp.length with hi | hi
    · rw [blockBlockList, mapIdx_row_getD _ _ _ _ hi]
      cases hyps[i]? with
      | none => exact Or.inl rfl
      | some hyp => exact blockListRow_getD_or items hyp _ j
    · left
      have h1 : (blockBlockList (some items) hyps lp).getD i
          ([] : List (WithBot α)) = [] := by
        apply List.getD_eq_default
        simpa [blockBlockList] using hi
      have h2 : lp.getD i ([] : List (WithBot α)) = [] := List.getD_eq_default _ _ hi
      rw [h1, h2]

theorem selfBlockStage_getD_or (s : TS α) (m : Mat α) (i j : ℕ) :
    (((selfBlockStage s m).getD i []).getD j ⊥ = ((m.getD i []).getD j ⊥)) ∨
      (((selfBlockStage s m).getD i []).getD j ⊥ = ⊥) := by
  unfold selfBlockStage
  split
  · exact blockNgramsAll_getD_or _ _ _ _ i j
  · exact Or.inl rfl

theorem ctxBlockStage_getD_or (s : TS α) (m : Mat α) (i j : ℕ) :
    (((ctxBlockStage s m).getD i []).getD j ⊥ = ((m.getD i []).getD j ⊥)) ∨
      (((ctxBlockStage s m).getD i []).getD j ⊥ = ⊥) := by
  unfold ctxBlockStage
  split
  · split
    · exact blockNgramsAll_getD_or _ _ _ _ i j
    · exact Or.inl rfl
  · exact Or.inl rfl

/-- While the guard is active, the end-token cell of every row of the masked
tensor handed to `select_paths` is `-inf`. -/
theorem maskLogprobs_eos_bot (s : TS α) (lp : Mat α)
    (hguard : s.all_scores.length - 1 < s.min_length) (i : ℕ) :
    ((maskLogprobs s lp).getD i []).getD s.eos ⊥ = ⊥ := by
  have h1 : ((minLenMask s lp).getD i []).getD s.eos ⊥ = ⊥ := by
    unfold minLenMask
    rw [if_pos hguard]
    rcases Nat.lt_or_ge i lp.length with hi | hi
    · have hrow : (lp.map (fun row => row.set s.eos ⊥)).getD i
          ([] : List (WithBot α)) = (lp.getD i []).set s.eos ⊥ := by
        rw [List.getD_eq_getElem (lp.map _) _ (by simpa using hi),
          List.getElem_map, List.getD_eq_getElem lp _ hi]
      rw [hrow]
      exact set_bot_getD_self _ _
    · have hrow : (lp.map (fun row => row.set s.eos ⊥)).getD i
          ([] : List (WithBot α)) = [] := by
        apply List.getD_eq_default
        simpa using hi
      rw [hrow]
      rfl
  have h2 : ((selfBlockStage s (minLenMask s lp)).getD i []).getD s.eos ⊥ = ⊥ := by
    rcases selfBlockStage_getD_or s (minLenMask s lp) i s.eos with h | h
    · rw [h]; exact h1
    · exact h
  have h3 : ((blockBlockList s.block_list s.partial_hyps
      (selfBlockStage s (minLenMask s lp))).getD i []).getD s.eos ⊥ = ⊥ := by
    rcases blockBlockList_getD_or s.block_list s.partial_hyps
        (selfBlockStage s (minLenMask s lp)) i s.eos with h | h
    · rw [h]; exact h2
    · exact h
  rcases ctxBlockStage_getD_or s (blockBlockList s.block_list s.partial_hyps
      (selfBlockStage s (minLenMask s lp))) i s.eos with h | h
  · rw [maskLogprobs, h]; exact h3
  · rw [maskLogprobs]; exact h

/-- With `min_length = 0` the minimum-length guard is the identity. -/
theorem minLenMask_zero (s : TS α) (lp : Mat α) (h : s.min_length = 0) :
    minLenMask s lp = lp := by
  unfold minLenMask
  rw [if_neg]
  omega

end MaskLemmas

/-! ## Claim C9: `advance` and the caller's logprobs tensor -/

/-- C9 (amended): `TreeSearch.advance` rewrites the caller's logprobs tensor
in place; its content after the call is exactly the guard/blocking pipeline
applied to it, and it differs from the original whenever the minimum-length
guard rewrites a finite end-token entry.  (The claim's universal "for every
advance call the tensor is not preserved" is refuted by
`C9_counterexample`.) -/
theorem C9_advance_frame {α : Type} [LinearOrderedCommRing α]
    (sel : SelectFn α) (s : TS α) (lp : Mat α) :
    (advanceM sel s lp).2 = maskLogprobs s lp ∧
    (s.all_scores.length - 1 < s.min_length →
      ∀ i, i < lp.length → (lp.getD i []).getD s.eos ⊥ ≠ ⊥ →
        (advanceM sel s lp).2 ≠ lp) := by
  constructor
  · rfl
  · intro hguard i _ hfin heq
    have hmask : maskLogprobs s lp = lp := by
      have h2 : (advanceM sel s lp).2 = maskLogprobs s lp := rfl
      rw [← h2, heq]
    apply hfin
    rw [← hmask]
    exact maskLogprobs_eos_bot s lp hguard i

/-- C9 witness: a concrete call (min length 3, finite end-token entry) where
the caller's tensor is provably rewritten. -/
theorem C9_advance_frame_witness :
    ((sampleTS ℤ 1 3).all_scores.length - 1 < (sampleTS ℤ 1 3).min_length ∧
      0 < ([[((0 : ℤ) : WithBot ℤ), ((-5 : ℤ) : WithBot ℤ),
        ((-1 : ℤ) : WithBot ℤ)]] : Mat ℤ).length ∧
      (([[((0 : ℤ) : WithBot ℤ), ((-5 : ℤ) : WithBot ℤ),
        ((-1 : ℤ) : WithBot ℤ)]] : Mat ℤ).getD 0 []).getD
          (sampleTS ℤ 1 3).eos ⊥ ≠ ⊥) ∧
    (advanceM greedySelect (sampleTS ℤ 1 3)
        [[((0 : ℤ) : WithBot ℤ), ((-5 : ℤ) : WithBot ℤ),
          ((-1 : ℤ) : WithBot ℤ)]]).2 ≠
      [[((0 : ℤ) : WithBot ℤ), ((-5 : ℤ) : WithBot ℤ),
        ((-1 : ℤ) : WithBot ℤ)]] :=
  ⟨by decide,
    (C9_advance_frame greedySelect (sampleTS ℤ 1 3) _).2 (by decide) 0
      (by decide) (by decide)⟩

/-- C9 counterexample: with min length 0 and no blocking configured, `advance`
leaves the caller's tensor unchanged, refuting "for every advance call the
caller's log-probability tensor is not preserved". -/
theorem C9_counterexample :
    (advanceM greedySelect (sampleTS ℤ 1 0)
        [[((0 : ℤ) : WithBot ℤ), ((-5 : ℤ) : WithBot ℤ),
          ((-1 : ℤ) : WithBot ℤ)]]).2 =
      [[((0 : ℤ) : WithBot ℤ), ((-5 : ℤ) : WithBot ℤ),
        ((-1 : ℤ) : WithBot ℤ)]] := by
  decide

/-! ## Claim C10: greedy factory hard-codes `min_length = 0` -/

/-- C10: with inference method `greedy`, `_treesearch_factory` constructs
`GreedySearch` with `min_length` hard-coded to 0 (whatever
`beam_min_length` says), and with `min_length = 0` the minimum-length guard
of `advance` is the identity, so it never suppresses the end token. -/
theorem C10_greedy_factory {α : Type} [LinearOrderedCommRing α]
    (o : GenOpts α) (nul sta en : ℕ) (h : o.inference = "greedy") :
    (∃ p, treesearchFactoryOut o nul sta en = some p ∧
      p.kind = SearchKind.greedy ∧ p.min_length = 0) ∧
    (∀ (s : TS α) (lp : Mat α), s.min_length = 0 → minLenMask s lp = lp) := by
  constructor
  · exact ⟨_, by rw [treesearchFactoryOut, if_pos h], rfl, rfl⟩
  · exact fun s lp hs => minLenMask_zero s lp hs

/-- C10 witness: concrete options with `beam_min_length = 7` still yield a
greedy search with `min_length = 0` and an inactive guard. -/
theorem C10_greedy_factory_witness :
    (GenOpts.mk "greedy" 5 7 (-1) (-1) (13 : ℤ) 10 2 9).inference
        = "greedy" ∧
    (∃ p, treesearchFactoryOut
        (GenOpts.mk "greedy" 5 7 (-1) (-1) (13 : ℤ) 10 2 9)
        0 1 2 = some p ∧
      p.kind = SearchKind.greedy ∧ p.min_length = 0) ∧
    (∀ (s : TS ℤ) (lp : Mat ℤ), s.min_length = 0 → minLenMask s lp = lp) := by
  refine ⟨rfl, ?_⟩
  exact C10_greedy_factory
    (GenOpts.mk "greedy" 5 7 (-1) (-1) (13 : ℤ) 10 2 9) 0 1 2 rfl

/-! ## `BeamSearch.select_paths` characterization -/

section BeamSelectLemmas

variable {α : Type} [LinearOrderedCommRing α]

theorem collapseRows_rows_length {lp : Mat α} {prior : List (WithBot α)}
    {V : ℕ} (h : ∀ row ∈ lp, row.length = V) :
    ∀ row ∈ collapseRows lp prior, row.length = V := by
  intro row hr
  unfold collapseRows at hr
  split at hr
  · exact h row (List.mem_of_mem_take hr)
  · exact h row hr

theorem collapseRows_length_eq_prior {lp : Mat α} {prior : List (WithBot α)}
    (hne : lp ≠ []) (hpr : prior.length = 1 ∨ prior.length = lp.length) :
    (collapseRows lp prior).length = prior.length := by
  have hlp : 0 < lp.length := List.length_pos.mpr hne
  unfold collapseRows
  split
  · rename_i h1
    rw [List.length_take, h1]
    omega
  · rename_i h1
    rcases hpr with h | h
    · exact absurd h h1
    · exact h.symm

theorem collapseRows_ne {lp : Mat α} {prior : List (WithBot α)}
    (hne : lp ≠ []) : collapseRows lp prior ≠ [] := by
  unfold collapseRows
  split
  · cases lp with
    | nil => exact absurd rfl hne
    | cons a l => simp
  · exact hne

theorem collapseRows_getD_zero_len {lp : Mat α} {prior : List (WithBot α)}
    {V : ℕ} (h : ∀ row ∈ lp, row.length = V) (hne : lp ≠ []) :
    ((collapseRows lp prior).getD 0 []).length = V := by
  have hpos : 0 < (collapseRows lp prior).length :=
    List.length_pos.mpr (collapseRows_ne hne)
  rw [List.getD_eq_getElem _ _ hpos]
  exact collapseRows_rows_length h _ (List.getElem_mem hpos)

theorem collapseRows_getD_eq_lp {lp : Mat α} {prior : List (WithBot α)}
    {j : ℕ} (hj : j < (collapseRows lp prior).length) :
    (collapseRows lp prior).getD j [] = lp.getD j [] := by
  by_cases h : prior.length = 1
  · have hj0 : j = 0 := by
      unfold collapseRows at hj
      rw [if_pos h, List.length_take] at hj
      omega
    subst hj0
    unfold collapseRows
    rw [if_pos h]
    exact getD_take_one lp []
  · unfold collapseRows
    rw [if_neg h]

theorem beamFlat_length {lp : Mat α} {prior : List (WithBot α)} {V : ℕ}
    (h : ∀ row ∈ lp, row.length = V) (hne : lp ≠ [])
    (hpr : prior.length = 1 ∨ prior.length = lp.length) :
    (beamFlat lp prior).length = (collapseRows lp prior).length * V := by
  unfold beamFlat
  rw [flatten_length_uniform _ (addPrior_rows_length (collapseRows_rows_length h)),
    addPrior_length, collapseRows_length_eq_prior hne hpr, Nat.min_self]

theorem beamFlat_getD {lp : Mat α} {prior : List (WithBot α)} {V j : ℕ}
    (hV : 0 < V) (h : ∀ row ∈ lp, row.length = V) (hne : lp ≠ [])
    (hpr : prior.length = 1 ∨ prior.length = lp.length)
    (hj : j < (collapseRows lp prior).length * V) :
    (beamFlat lp prior).getD j ⊥ =
      ((collapseRows lp prior).getD (j / V) []).getD (j % V) ⊥ +
        prior.getD (j / V) ⊥ := by
  have hlen := collapseRows_length_eq_prior hne hpr
  have hrows : ∀ row ∈ collapseRows lp prior, row.length = V :=
    collapseRows_rows_length h
  unfold beamFlat
  rw [flatten_getD_uniform hV _ j
      (by rw [addPrior_length, hlen, Nat.min_self, ← hlen]; exact hj)
      (addPrior_rows_length hrows)]
  exact addPrior_getD hrows
    (by rw [hlen, Nat.min_self, ← hlen]; exact (Nat.div_lt_iff_lt_mul hV).mpr hj)
    (Nat.mod_lt _ hV)

theorem beamSelect_eq (s : TS α) (lp : Mat α) (prior : List (WithBot α))
    (cur : ℕ) {V : ℕ} (hrows : ∀ row ∈ lp, row.length = V) (hne : lp ≠ []) :
    beamSelect s lp prior cur =
      ((topkIdx (beamFlat lp prior) s.beam_size).map (· / V),
       (topkIdx (beamFlat lp prior) s.beam_size).map (· % V),
       topkVal (beamFlat lp prior) s.beam_size) := by
  have hv : ((collapseRows lp prior).getD 0 []).length = V :=
    collapseRows_getD_zero_len hrows hne
  have h0 : beamSelect s lp prior cur =
      ((topkIdx (beamFlat lp prior) s.beam_size).map
        (· / ((collapseRows lp prior).getD 0 []).length),
       (topkIdx (beamFlat lp prior) s.beam_size).map
        (· % ((collapseRows lp prior).getD 0 []).length),
       topkVal (beamFlat lp prior) s.beam_size) := rfl
  rw [h0, hv]

end BeamSelectLemmas

/-! ## Claim C1: `BeamSearch.select_paths` is a global top-k -/

/-- C1: `BeamSearch.select_paths` returns, for every well-shaped call, three
length-`beam_size` vectors that are exactly the global top-`beam_size` of the
flattened score space `score[row][token] = logprob[row][token] + prior[row]`:
the scores are the first `beam_size` entries of the descending sort of that
space, each entry decodes through `sourceSlot = flatIndex / vocab` and
`tokenId = flatIndex % vocab`, unselected cells never beat selected ones, and
with a single prior score (step 0) only row 0 is considered. -/
theorem C1_beam_select_paths {α : Type} [LinearOrderedCommRing α]
    (s : TS α) (lp : Mat α) (prior : List (WithBot α)) (cur V : ℕ)
    (hV : 0 < V) (hrows : ∀ row ∈ lp, row.length = V) (hne : lp ≠ [])
    (hpr : prior.length = 1 ∨ prior.length = lp.length)
    (hk : s.beam_size ≤ (collapseRows lp prior).length * V) :
    (beamSelect s lp prior cur).1.length = s.beam_size ∧
    (beamSelect s lp prior cur).2.1.length = s.beam_size ∧
    (beamSelect s lp prior cur).2.2.length = s.beam_size ∧
    (beamSelect s lp prior cur).2.2 =
      (sortDesc (beamFlat lp prior)).take s.beam_size ∧
    (∀ i, i < s.beam_size →
      (beamSelect s lp prior cur).2.2.getD i ⊥ =
        (lp.getD ((beamSelect s lp prior cur).1.getD i 0) []).getD
            ((beamSelect s lp prior cur).2.1.getD i 0) ⊥ +
          prior.getD ((beamSelect s lp prior cur).1.getD i 0) ⊥) ∧
    (∀ r c, r < (collapseRows lp prior).length → c < V →
      (∀ i, i < s.beam_size →
        ¬((beamSelect s lp prior cur).1.getD i 0 = r ∧
          (beamSelect s lp prior cur).2.1.getD i 0 = c)) →
      ∀ i, i < s.beam_size →
        (lp.getD r []).getD c ⊥ + prior.getD r ⊥ ≤
          (beamSelect s lp prior cur).2.2.getD i ⊥) ∧
    (prior.length = 1 → ∀ x ∈ (beamSelect s lp prior cur).1, x = 0) := by
  have hflatlen : (beamFlat lp prior).length =
      (collapseRows lp prior).length * V := beamFlat_length hrows hne hpr
  have hkk : s.beam_size ≤ (beamFlat lp prior).length := by
    rw [hflatlen]; exact hk
  have hsel := beamSelect_eq s lp prior cur hrows hne
  have hidxlen : (topkIdx (beamFlat lp prior) s.beam_size).length =
      s.beam_size := by
    rw [topkIdx_length]; omega
  have hvallen : (topkVal (beamFlat lp prior) s.beam_size).length =
      s.beam_size := by
    rw [topkVal_length]; omega
  -- positional facts
  have hslot : ∀ i, i < s.beam_size →
      (beamSelect s lp prior cur).1.getD i 0 =
        (topkIdx (beamFlat lp prior) s.beam_size).getD i 0 / V := by
    intro i hi
    rw [hsel]
    rw [List.getD_eq_getElem _ _ (by simpa [hidxlen] using hi),
      List.getElem_map, List.getD_eq_getElem _ _ (by rw [hidxlen]; exact hi)]
  have htok : ∀ i, i < s.beam_size →
      (beamSelect s lp prior cur).2.1.getD i 0 =
        (topkIdx (beamFlat lp prior) s.beam_size).getD i 0 % V := by
    intro i hi
    rw [hsel]
    rw [List.getD_eq_getElem _ _ (by simpa [hidxlen] using hi),
      List.getElem_map, List.getD_eq_getElem _ _ (by rw [hidxlen]; exact hi)]
  have hsc : ∀ i, i < s.beam_size →
      (beamSelect s lp prior cur).2.2.getD i ⊥ =
        (beamFlat lp prior).getD
          ((topkIdx (beamFlat lp prior) s.beam_size).getD i 0) ⊥ := by
    intro i hi
    rw [hsel]
    show (topkVal (beamFlat lp prior) s.beam_size).getD i ⊥ = _
    rw [topkVal_eq_map]
    rw [List.getD_eq_getElem _ _ (by
        rw [List.length_map, hidxlen]; exact hi),
      List.getElem_map]
    congr 1
    exact (List.getD_eq_getElem _ _ (by rw [hidxlen]; exact hi)).symm
  have hmem : ∀ i, i < s.beam_size →
      (topkIdx (beamFlat lp prior) s.beam_size).getD i 0 ∈
        topkIdx (beamFlat lp prior) s.beam_size := by
    intro i hi
    rw [List.getD_eq_getElem _ _ (by rw [hidxlen]; exact hi)]
    exact List.getElem_mem _
  refine ⟨by rw [hsel]; simpa using hidxlen,
          by rw [hsel]; simpa using hidxlen,
          by rw [hsel]; exact hvallen,
          by rw [hsel]; exact topkVal_eq_take_sortDesc, ?_, ?_, ?_⟩
  · -- per-entry decoding
    intro i hi
    have hj := hmem i hi
    have hjlt : (topkIdx (beamFlat lp prior) s.beam_size).getD i 0 <
        (collapseRows lp prior).length * V := by
      rw [← hflatlen]; exact topkIdx_lt_length hj
    have hcoll : (collapseRows lp prior).getD
          ((topkIdx (beamFlat lp prior) s.beam_size).getD i 0 / V) [] =
        lp.getD ((topkIdx (beamFlat lp prior) s.beam_size).getD i 0 / V) [] :=
      collapseRows_getD_eq_lp ((Nat.div_lt_iff_lt_mul hV).mpr hjlt)
    rw [hsc i hi, hslot i hi, htok i hi,
      beamFlat_getD hV hrows hne hpr hjlt, hcoll]
  · -- optimality of the selection
    intro r c hr hc hnotsel i hi
    have hjlt : r * V + c < (collapseRows lp prior).length * V := by
      have : r * V + c < (r + 1) * V := by
        rw [Nat.add_mul, Nat.one_mul]
        omega
      have h2 : (r + 1) * V ≤ (collapseRows lp prior).length * V :=
        Nat.mul_le_mul_right _ hr
      omega
    have hdiv : (r * V + c) / V = r := by
      rw [Nat.mul_comm r V, Nat.mul_add_div hV, Nat.div_eq_of_lt hc,
        Nat.add_zero]
    have hmod : (r * V + c) % V = c := by
      rw [Nat.mul_comm r V, Nat.mul_add_mod, Nat.mod_eq_of_lt hc]
    have hnot : r * V + c ∉ topkIdx (beamFlat lp prior) s.beam_size := by
      intro hmemj
      obtain ⟨pos, hpos, hposeq⟩ := List.mem_iff_getElem.mp hmemj
      have hposk : pos < s.beam_size := by rw [hidxlen] at hpos; exact hpos
      apply hnotsel pos hposk
      have hgd : (topkIdx (beamFlat lp prior) s.beam_size).getD pos 0 =
          r * V + c := by
        rw [List.getD_eq_getElem _ _ hpos, hposeq]
      constructor
      · rw [hslot pos hposk, hgd, hdiv]
      · rw [htok pos hposk, hgd, hmod]
    have hdom := topkIdx_dominates (v := beamFlat lp prior)
      (k := s.beam_size) (m := r * V + c)
      (by rw [hflatlen]; exact hjlt) hnot (hmem i hi)
    rw [hsc i hi]
    have hval : (beamFlat lp prior).getD (r * V + c) ⊥ =
        (lp.getD r []).getD c ⊥ + prior.getD r ⊥ := by
      have hcoll2 : (collapseRows lp prior).getD ((r * V + c) / V) [] =
          lp.getD ((r * V + c) / V) [] :=
        collapseRows_getD_eq_lp (by rw [hdiv]; exact hr)
      rw [beamFlat_getD hV hrows hne hpr hjlt, hcoll2, hdiv, hmod]
    rw [← hval]
    exact hdom
  · -- step-0 collapse: only row 0
    intro h1 x hx
    rw [hsel] at hx
    simp only [List.mem_map] at hx
    obtain ⟨j, hj, rfl⟩ := hx
    have hjlt : j < (collapseRows lp prior).length * V := by
      rw [← hflatlen]; exact topkIdx_lt_length hj
    have hclen : (collapseRows lp prior).length = 1 := by
      rw [collapseRows_length_eq_prior hne hpr, h1]
    rw [hclen, Nat.one_mul] at hjlt
    exact Nat.div_eq_of_lt hjlt

/-- C1 witness: the 2 x 3 toy case of the spec.  The hypotheses are
discharged by computation, the top-k facts come from `C1_beam_select_paths`,
and the concrete outcome (slots `[1, 0]`, tokens `[1, 2]`, scores `[6, 3]`)
is checked by brute evaluation. -/
theorem C1_beam_select_paths_witness :
    ((0 : ℕ) < 3 ∧ mat23 ≠ [] ∧ (∀ row ∈ mat23, row.length = 3) ∧
      (pri2.length = 1 ∨ pri2.length = mat23.length) ∧
      (sampleTS ℤ 2 0).beam_size ≤ (collapseRows mat23 pri2).length * 3) ∧
    ((beamSelect (sampleTS ℤ 2 0) mat23 pri2 1).2.2 =
        (sortDesc (beamFlat mat23 pri2)).take (sampleTS ℤ 2 0).beam_size ∧
      (∀ i, i < (sampleTS ℤ 2 0).beam_size →
        (beamSelect (sampleTS ℤ 2 0) mat23 pri2 1).2.2.getD i ⊥ =
          (mat23.getD ((beamSelect (sampleTS ℤ 2 0) mat23 pri2 1).1.getD i 0)
              []).getD
              ((beamSelect (sampleTS ℤ 2 0) mat23 pri2 1).2.1.getD i 0) ⊥ +
            pri2.getD
              ((beamSelect (sampleTS ℤ 2 0) mat23 pri2 1).1.getD i 0) ⊥)) ∧
    ((beamSelect (sampleTS ℤ 2 0) mat23 pri2 1).1 = [1, 0] ∧
     (beamSelect (sampleTS ℤ 2 0) mat23 pri2 1).2.1 = [1, 2] ∧
     (beamSelect (sampleTS ℤ 2 0) mat23 pri2 1).2.2 =
       [((6 : ℤ) : WithBot ℤ), ((3 : ℤ) : WithBot ℤ)]) :=
  ⟨⟨by norm_num, by decide, by decide, by decide, by decide⟩,
   ⟨(C1_beam_select_paths (sampleTS ℤ 2 0) mat23 pri2 1 3 (by norm_num)
        (by decide) (by decide) (by decide) (by decide)).2.2.2.1,
    (C1_beam_select_paths (sampleTS ℤ 2 0) mat23 pri2 1 3 (by norm_num)
        (by decide) (by decide) (by decide) (by decide)).2.2.2.2.1⟩,
   by decide⟩

/-! ## Shape preservation of the masking pipeline -/

section MaskShape

variable {α : Type} [LinearOrderedCommRing α]

theorem foldl_length_pres {β : Type} (f : List (WithBot α) → β → List (WithBot α))
    (hf : ∀ r g, (f r g).length = r.length) :
    ∀ (gs : List β) (r : List (WithBot α)), (gs.foldl f r).length = r.length
  | [], _ => rfl
  | g :: gs, r => by
    rw [List.foldl_cons, foldl_length_pres f hf gs (f r g), hf]

theorem blockNgramsRow_length (n : ℕ) (hyp src : List ℕ)
    (row : List (WithBot α)) : (blockNgramsRow n hyp src row).length = row.length := by
  unfold blockNgramsRow
  split
  · rfl
  · apply foldl_length_pres
    intro r g
    split
    · exact List.length_set ..
    · rfl

theorem blockListRow_length (items : List (ℕ × List (List ℕ)))
    (hyp : List ℕ) (row : List (WithBot α)) :
    (blockListRow items hyp row).length = row.length := by
  unfold blockListRow
  apply foldl_length_pres
  intro r ni
  apply foldl_length_pres
  intro r2 g
  split
  · exact List.length_set ..
  · rfl

theorem blockNgramsAll_length (n : ℕ) (hyps : List (List ℕ))
    (src : Option (List ℕ)) (lp : Mat α) :
    (blockNgramsAll n hyps src lp).length = lp.length := by
  simp [blockNgramsAll]

theorem blockNgramsAll_rows {n : ℕ} {hyps : List (List ℕ)}
    {src : Option (List ℕ)} {lp : Mat α} {V : ℕ}
    (h : ∀ row ∈ lp, row.length = V) :
    ∀ row ∈ blockNgramsAll n hyps src lp, row.length = V := by
  intro row hr
  obtain ⟨i, hi, hval⟩ := List.mem_iff_getElem.mp hr
  have hi2 : i < lp.length := by
    simpa [blockNgramsAll_length] using hi
  unfold blockNgramsAll at hval
  rw [List.getElem_mapIdx] at hval
  subst hval
  cases hh : hyps[i]? with
  | none => simp [hh]; exact h _ (List.getElem_mem hi2)
  | some hyp =>
      simp only [hh]
      rw [blockNgramsRow_length]
      exact h _ (List.getElem_mem hi2)

theorem blockBlockList_length (bl : Option (List (ℕ × List (List ℕ))))
    (hyps : List (List ℕ)) (lp : Mat α) :
    (blockBlockList bl hyps lp).length = lp.length := by
  cases bl <;> simp [blockBlockList]

theorem blockBlockList_rows {bl : Option (List (ℕ × List (List ℕ)))}
    {hyps : List (List ℕ)} {lp : Mat α} {V : ℕ}
    (h : ∀ row ∈ lp, row.length = V) :
    ∀ row ∈ blockBlockList bl hyps lp, row.length = V := by
  cases bl with
  | none => exact h
  | some items =>
    intro row hr
    obtain ⟨i, hi, hval⟩ := List.mem_iff_getElem.mp hr
    have hi2 : i < lp.length := by
      simpa [blockBlockList_length] using hi
    unfold blockBlockList at hval
    rw [List.getElem_mapIdx] at hval
    subst hval
    cases hh : hyps[i]? with
    | none => simp [hh]; exact h _ (List.getElem_mem hi2)
    | some hyp =>
        simp only [hh]
        rw [blockListRow_length]
        exact h _ (List.getElem_mem hi2)

theorem minLenMask_length (s : TS α) (lp : Mat α) :
    (minLenMask s lp).length = lp.length := by
  unfold minLenMask
  split <;> simp

theorem minLenMask_rows {s : TS α} {lp : Mat α} {V : ℕ}
    (h : ∀ row ∈ lp, row.length = V) :
    ∀ row ∈ minLenMask s lp, row.length = V := by
  unfold minLenMask
  split
  · intro row hr
    simp only [List.mem_map] at hr
    obtain ⟨r0, hr0, rfl⟩ := hr
    rw [List.length_set]
    exact h r0 hr0
  · exact h

theorem selfBlockStage_length (s : TS α) (m : Mat α) :
    (selfBlockStage s m).length = m.length := by
  unfold selfBlockStage
  split
  · exact blockNgramsAll_length ..
  · rfl

theorem selfBlockStage_rows {s : TS α} {m : Mat α} {V : ℕ}
    (h : ∀ row ∈ m, row.length = V) :
    ∀ row ∈ selfBlockStage s m, row.length = V := by
  unfold selfBlockStage
  split
  · exact blockNgramsAll_rows h
  · exact h

theorem ctxBlockStage_length (s : TS α) (m : Mat α) :
    (ctxBlockStage s m).length = m.length := by
  unfold ctxBlockStage
  split
  · split
    · exact blockNgramsAll_length ..
    · rfl
  · rfl

theorem ctxBlockStage_rows {s : TS α} {m : Mat α} {V : ℕ}
    (h : ∀ row ∈ m, row.length = V) :
    ∀ row ∈ ctxBlockStage s m, row.length = V := by
  unfold ctxBlockStage
  split
  · split
    · exact blockNgramsAll_rows h
    · exact h
  · exact h

theorem maskLogprobs_length (s : TS α) (lp : Mat α) :
    (maskLogprobs s lp).length = lp.length := by
  unfold maskLogprobs
  rw [ctxBlockStage_length, blockBlockList_length, selfBlockStage_length,
    minLenMask_length]

theorem maskLogprobs_rows {s : TS α} {lp : Mat α} {V : ℕ}
    (h : ∀ row ∈ lp, row.length = V) :
    ∀ row ∈ maskLogprobs s lp, row.length = V :=
  ctxBlockStage_rows (blockBlockList_rows (selfBlockStage_rows (minLenMask_rows h)))

theorem maskLogprobs_ne {s : TS α} {lp : Mat α} (hne : lp ≠ []) :
    maskLogprobs s lp ≠ [] := by
  intro h
  apply hne
  have := maskLogprobs_length s lp
  rw [h] at this
  exact List.length_eq_zero.mp this.symm

end MaskShape

/-! ## `advance` projection lemmas -/

section AdvanceProj

variable {α : Type} [LinearOrderedCommRing α] (sel : SelectFn α) (s : TS α)
  (lp : Mat α)

theorem advance_outputs :
    (advanceStep sel s lp).outputs = s.outputs ++
      [(sel s (maskLogprobs s lp) (priorOf s) (s.all_scores.length - 1)).2.1] :=
  rfl

theorem advance_bookkeep :
    (advanceStep sel s lp).bookkeep = s.bookkeep ++
      [(sel s (maskLogprobs s lp) (priorOf s) (s.all_scores.length - 1)).1] :=
  rfl

theorem advance_all_scores :
    (advanceStep sel s lp).all_scores = s.all_scores ++
      [(sel s (maskLogprobs s lp) (priorOf s) (s.all_scores.length - 1)).2.2] :=
  rfl

theorem advance_scores :
    (advanceStep sel s lp).scores = some
      (sel s (maskLogprobs s lp) (priorOf s) (s.all_scores.length - 1)).2.2 :=
  rfl

theorem advance_finished :
    (advanceStep sel s lp).finished = s.finished ++
      (List.range s.beam_size).filterMap (fun h =>
        if (sel s (maskLogprobs s lp) (priorOf s)
              (s.all_scores.length - 1)).2.1.getD h 0 = s.eos ∧
            ¬ (sel s (maskLogprobs s lp) (priorOf s)
              (s.all_scores.length - 1)).2.2.getD h ⊥ ≤ ⊥ then
          some ⟨(s.outputs ++ [(sel s (maskLogprobs s lp) (priorOf s)
              (s.all_scores.length - 1)).2.1]).length - 1, h,
            (sel s (maskLogprobs s lp) (priorOf s)
              (s.all_scores.length - 1)).2.2.getD h ⊥, s.eos⟩
        else none) :=
  rfl

theorem advance_beam_size : (advanceStep sel s lp).beam_size = s.beam_size :=
  rfl

theorem advance_eos : (advanceStep sel s lp).eos = s.eos := rfl

theorem advance_bos : (advanceStep sel s lp).bos = s.bos := rfl

theorem deadSlotPenalty_length (p : List (WithBot α)) (lo : List ℕ) (e : ℕ) :
    (deadSlotPenalty p lo e).length = p.length := by
  simp [deadSlotPenalty]

theorem priorOf_length_cases {s : TS α} {n : ℕ}
    (hsc : s.scores = none ∨
      ∃ l, s.scores = some l ∧ (l.length = 1 ∨ l.length = n)) :
    (priorOf s).length = 1 ∨ (priorOf s).length = n := by
  unfold priorOf
  rw [deadSlotPenalty_length]
  rcases hsc with h | ⟨l, hl, hn⟩
  · rw [h]; exact Or.inl rfl
  · rw [hl]; exact hn

end AdvanceProj

section PositionalHelpers

variable {α : Type} [LinearOrderedCommRing α]

theorem getD_map_mod (idxs : List ℕ) (V h : ℕ) (hh : h < idxs.length) :
    (idxs.map (· % V)).getD h 0 = idxs.getD h 0 % V := by
  rw [List.getD_eq_getElem (idxs.map _) _ (by simpa using hh),
    List.getElem_map, List.getD_eq_getElem _ _ hh]

theorem getD_map_div (idxs : List ℕ) (V h : ℕ) (hh : h < idxs.length) :
    (idxs.map (· / V)).getD h 0 = idxs.getD h 0 / V := by
  rw [List.getD_eq_getElem (idxs.map _) _ (by simpa using hh),
    List.getElem_map, List.getD_eq_getElem _ _ hh]

theorem topkVal_getD (v : List (WithBot α)) (k i : ℕ)
    (hi : i < (topkIdx v k).length) :
    (topkVal v k).getD i ⊥ = v.getD ((topkIdx v k).getD i 0) ⊥ := by
  rw [topkVal_eq_map,
    List.getD_eq_getElem ((topkIdx v k).map _) _ (by simpa using hi),
    List.getElem_map]
  congr 1
  exact (List.getD_eq_getElem _ _ hi).symm

theorem topkIdx_getD_mem (v : List (WithBot α)) (k i : ℕ)
    (hi : i < (topkIdx v k).length) :
    (topkIdx v k).getD i 0 ∈ topkIdx v k := by
  rw [List.getD_eq_getElem _ _ hi]
  exact List.getElem_mem _

end PositionalHelpers

/-! ## Claim C7: the minimum-length guard -/

/-- C7 (amended): while the current length is below `min_length`, `advance`
forces the end-token log-probability to `-inf` on every row of the tensor it
hands to selection; consequently (Beam policy) the end token can be selected
only with score `-inf`, and in particular no end-token hypothesis is added to
`finished` at such a step.  (The claim's stronger "the end token is never
selected" is refuted by `C7_counterexample`: with `beam_size = vocab` the
`-inf` end token is still among the global top-`beam_size`.) -/
theorem C7_min_length_guard {α : Type} [LinearOrderedCommRing α]
    (s : TS α) (lp : Mat α) (V : ℕ)
    (hV : 0 < V) (hrows : ∀ row ∈ lp, row.length = V) (hne : lp ≠ [])
    (hsc : s.scores = none ∨
      ∃ l, s.scores = some l ∧ (l.length = 1 ∨ l.length = lp.length))
    (hk : s.beam_size ≤
      (collapseRows (maskLogprobs s lp) (priorOf s)).length * V)
    (hguard : s.all_scores.length - 1 < s.min_length) :
    (∀ i, ((advanceM beamSelect s lp).2.getD i []).getD s.eos ⊥ = ⊥) ∧
    (∀ h, h < s.beam_size →
      ((advanceStep beamSelect s lp).outputs.getLastD []).getD h 0 = s.eos →
      ((advanceStep beamSelect s lp).scores.getD []).getD h ⊥ = ⊥) ∧
    (advanceStep beamSelect s lp).finished = s.finished := by
  have hmrows : ∀ row ∈ maskLogprobs s lp, row.length = V :=
    maskLogprobs_rows hrows
  have hmne : maskLogprobs s lp ≠ [] := maskLogprobs_ne hne
  have hpr : (priorOf s).length = 1 ∨
      (priorOf s).length = (maskLogprobs s lp).length := by
    rcases priorOf_length_cases (n := lp.length) hsc with h | h
    · exact Or.inl h
    · right; rw [h, maskLogprobs_length]
  have hsel := beamSelect_eq s (maskLogprobs s lp) (priorOf s)
    (s.all_scores.length - 1) hmrows hmne
  have hflatlen : (beamFlat (maskLogprobs s lp) (priorOf s)).length =
      (collapseRows (maskLogprobs s lp) (priorOf s)).length * V :=
    beamFlat_length hmrows hmne hpr
  have hidxlen : (topkIdx (beamFlat (maskLogprobs s lp) (priorOf s))
      s.beam_size).length = s.beam_size := by
    rw [topkIdx_length, hflatlen]
    omega
  -- core: a selected end token carries a ⊥ score
  have hcore : ∀ h, h < s.beam_size →
      (beamSelect s (maskLogprobs s lp) (priorOf s)
        (s.all_scores.length - 1)).2.1.getD h 0 = s.eos →
      (beamSelect s (maskLogprobs s lp) (priorOf s)
        (s.all_scores.length - 1)).2.2.getD h ⊥ = ⊥ := by
    intro h hh htok
    have hjmem : (topkIdx (beamFlat (maskLogprobs s lp) (priorOf s))
        s.beam_size).getD h 0 ∈
        topkIdx (beamFlat (maskLogprobs s lp) (priorOf s)) s.beam_size := by
      rw [List.getD_eq_getElem _ _ (by rw [hidxlen]; exact hh)]
      exact List.getElem_mem _
    have hjlt : (topkIdx (beamFlat (maskLogprobs s lp) (priorOf s))
        s.beam_size).getD h 0 <
        (collapseRows (maskLogprobs s lp) (priorOf s)).length * V := by
      rw [← hflatlen]
      exact topkIdx_lt_length hjmem
    have htok2 : (topkIdx (beamFlat (maskLogprobs s lp) (priorOf s))
        s.beam_size).getD h 0 % V = s.eos := by
      rw [hsel] at htok
      rw [← getD_map_mod _ V h (by rw [hidxlen]; exact hh)]
      exact htok
    have hscval : (beamSelect s (maskLogprobs s lp) (priorOf s)
        (s.all_scores.length - 1)).2.2.getD h ⊥ =
        (beamFlat (maskLogprobs s lp) (priorOf s)).getD
          ((topkIdx (beamFlat (maskLogprobs s lp) (priorOf s))
            s.beam_size).getD h 0) ⊥ := by
      rw [hsel]
      exact topkVal_getD _ _ h (by rw [hidxlen]; exact hh)
    rw [hscval, beamFlat_getD hV hmrows hmne hpr hjlt,
      collapseRows_getD_eq_lp ((Nat.div_lt_iff_lt_mul hV).mpr hjlt), htok2,
      maskLogprobs_eos_bot s lp hguard]
    exact WithBot.bot_add _
  refine ⟨?_, ?_, ?_⟩
  · intro i
    exact maskLogprobs_eos_bot s lp hguard i
  · intro h hh htok
    rw [advance_outputs, List.getLastD_concat] at htok
    rw [advance_scores]
    exact hcore h hh htok
  · rw [advance_finished]
    have hnil : (List.range s.beam_size).filterMap (fun h =>
        if (beamSelect s (maskLogprobs s lp) (priorOf s)
              (s.all_scores.length - 1)).2.1.getD h 0 = s.eos ∧
            ¬ (beamSelect s (maskLogprobs s lp) (priorOf s)
              (s.all_scores.length - 1)).2.2.getD h ⊥ ≤ ⊥ then
          some (⟨(s.outputs ++ [(beamSelect s (maskLogprobs s lp) (priorOf s)
              (s.all_scores.length - 1)).2.1]).length - 1, h,
            (beamSelect s (maskLogprobs s lp) (priorOf s)
              (s.all_scores.length - 1)).2.2.getD h ⊥, s.eos⟩ : HypTail α)
        else none) = [] := by
      rw [List.filterMap_eq_nil_iff]
      intro h hh
      rw [if_neg]
      rintro ⟨hteos, hns⟩
      exact hns (le_of_eq (hcore h (List.mem_range.mp hh) hteos))
    rw [hnil, List.append_nil]

/-- C7 witness: a concrete guarded step (beam 2, vocab 3, `min_length = 3`,
step 0) where every row's end-token entry is forced to `-inf` and nothing is
finalized. -/
theorem C7_min_length_guard_witness :
    ((0 : ℕ) < 3 ∧ cex7lp ≠ [] ∧
      (sampleTS ℤ 2 3).all_scores.length - 1 < (sampleTS ℤ 2 3).min_length) ∧
    (∀ i, ((advanceM beamSelect (sampleTS ℤ 2 3) cex7lp).2.getD i []).getD
        (sampleTS ℤ 2 3).eos ⊥ = ⊥) ∧
    (advanceStep beamSelect (sampleTS ℤ 2 3) cex7lp).finished =
      (sampleTS ℤ 2 3).finished :=
  ⟨⟨by norm_num, by decide, by decide⟩,
   (C7_min_length_guard (sampleTS ℤ 2 3) cex7lp 3 (by norm_num) (by decide)
      (by decide) (Or.inl rfl) (by decide) (by decide)).1,
   (C7_min_length_guard (sampleTS ℤ 2 3) cex7lp 3 (by norm_num) (by decide)
      (by decide) (Or.inl rfl) (by decide) (by decide)).2.2⟩

/-- C7 counterexample: with `min_length = 3` and `beam_size = vocab = 3`, the
end token (id 2) is nevertheless selected at step 0 — the `-inf` entries are
still among the global top-`beam_size` — refuting "the end token is never
selected at steps 0 through 2". -/
theorem C7_counterexample :
    (sampleTS ℤ 3 3).min_length = 3 ∧
    (sampleTS ℤ 3 3).eos = 2 ∧
    (sampleTS ℤ 3 3).all_scores.length - 1 = 0 ∧
    (2 : ℕ) ∈ (advanceStep beamSelect (sampleTS ℤ 3 3) cex7lp).outputs.getLastD
      [] := by
  decide

/-! ## Claim C2: bank-then-score ranking -/

section C2Lemmas

variable {α : Type} [LinearOrderedCommRing α]

/-- Key comparison across banks: the higher bank wins precisely while the
lower-bank candidate's score advantage stays below `100` per bank step
(`MAX_SCORE = -100` is finite, so it does not dominate unboundedly). -/
theorem lcbsSortKey_lt_of_bank {T ba bb : ℕ} {sa sb : WithBot α}
    (hbank : bb < ba)
    (hsc : sb < sa + (((100 * ((ba : ℤ) - (bb : ℤ)) : ℤ) : α) : WithBot α)) :
    lcbsSortKey T bb sb < lcbsSortKey T ba sa := by
  unfold lcbsSortKey
  induction sa using WithBot.recBotCoe with
  | bot =>
    rw [WithBot.bot_add] at hsc
    exact absurd hsc (not_lt_bot)
  | coe x =>
    induction sb using WithBot.recBotCoe with
    | bot =>
      rw [WithBot.add_bot, ← WithBot.coe_add]
      exact WithBot.bot_lt_coe _
    | coe y =>
      rw [← WithBot.coe_add, ← WithBot.coe_add, WithBot.coe_lt_coe]
      rw [← WithBot.coe_add, WithBot.coe_lt_coe] at hsc
      have hcast : ((((T : ℤ) - (ba : ℤ)) * (-100) : ℤ) : α) =
          (((T : ℤ) - (bb : ℤ)) * (-100) : ℤ) +
            ((100 * ((ba : ℤ) - (bb : ℤ)) : ℤ) : α) := by
        push_cast
        ring
      rw [hcast]
      have := add_lt_add_left hsc
        ((((T : ℤ) - (bb : ℤ)) * (-100) : ℤ) : α)
      calc ((((T : ℤ) - (bb : ℤ)) * (-100) : ℤ) : α) + y
          < (((T : ℤ) - (bb : ℤ)) * (-100) : ℤ) +
              (x + ((100 * ((ba : ℤ) - (bb : ℤ)) : ℤ) : α)) := this
        _ = (((T : ℤ) - (bb : ℤ)) * (-100) : ℤ) +
              ((100 * ((ba : ℤ) - (bb : ℤ)) : ℤ) : α) + x := by ring

/-- Key comparison within a bank: score order decides. -/
theorem lcbsSortKey_lt_of_score {T b : ℕ} {sa sb : WithBot α}
    (hsc : sb < sa) : lcbsSortKey T b sb < lcbsSortKey T b sa := by
  unfold lcbsSortKey
  induction sa using WithBot.recBotCoe with
  | bot => exact absurd hsc (not_lt_bot)
  | coe x =>
    induction sb using WithBot.recBotCoe with
    | bot =>
      rw [WithBot.add_bot, ← WithBot.coe_add]
      exact WithBot.bot_lt_coe _
    | coe y =>
      rw [← WithBot.coe_add, ← WithBot.coe_add, WithBot.coe_lt_coe]
      rw [WithBot.coe_lt_coe] at hsc
      exact add_lt_add_left hsc _

/-- In the sorted candidate list, a strictly larger key means a strictly
earlier position. -/
theorem lcbsSortStage_pos {T : ℕ} {cs : List (Cand α)} {i j : ℕ}
    (hi : i < (lcbsSortStage T cs).length) (hj : j < (lcbsSortStage T cs).length)
    (hkey : candKey T ((lcbsSortStage T cs).getD i default) <
      candKey T ((lcbsSortStage T cs).getD j default)) : j < i := by
  by_contra hge
  push_neg at hge
  have hsorted : List.Sorted (lcbsSortRel T) (lcbsSortStage T cs) :=
    List.sorted_insertionSort _ _
  rcases Nat.eq_or_lt_of_le hge with heq | hlt2
  · subst heq
    exact absurd hkey (lt_irrefl _)
  · have hrel := List.pairwise_iff_get.mp hsorted ⟨i, hi⟩ ⟨j, hj⟩ hlt2
    have h2 : candKey T ((lcbsSortStage T cs).getD j default) ≤
        candKey T ((lcbsSortStage T cs).getD i default) := by
      rw [List.getD_eq_getElem _ _ hj, List.getD_eq_getElem _ _ hi]
      exact hrel
    exact absurd hkey (not_lt_of_le h2)

end C2Lemmas

/-- C2 (amended): the per-sentence ranking sorts candidates by the composite
key `(totalConstraintTokens − bank) · (−100) + score` descending (a stable
model of `torch.sort`); a strictly higher-bank candidate is ordered before a
lower-bank one whenever the lower one's score advantage is below `100` per
bank step, and within equal banks candidates are ordered by score descending.
Because `MAX_SCORE = -100` is finite, bank priority is *not* absolute: see
`C2_counterexample`. -/
theorem C2_bank_ranking {α : Type} [LinearOrderedCommRing α] (T : ℕ)
    (cs : List (Cand α)) :
    List.Sorted (lcbsSortRel T) (lcbsSortStage T cs) ∧
    List.Perm (lcbsSortStage T cs) cs ∧
    (∀ i j, i < (lcbsSortStage T cs).length → j < (lcbsSortStage T cs).length →
      ((lcbsSortStage T cs).getD i default).bank <
        ((lcbsSortStage T cs).getD j default).bank →
      ((lcbsSortStage T cs).getD i default).score <
        ((lcbsSortStage T cs).getD j default).score +
          (((100 * ((((lcbsSortStage T cs).getD j default).bank : ℤ) -
            (((lcbsSortStage T cs).getD i default).bank : ℤ)) : ℤ) : α) :
            WithBot α) →
      j < i) ∧
    (∀ i j, i < (lcbsSortStage T cs).length → j < (lcbsSortStage T cs).length →
      ((lcbsSortStage T cs).getD i default).bank =
        ((lcbsSortStage T cs).getD j default).bank →
      ((lcbsSortStage T cs).getD i default).score <
        ((lcbsSortStage T cs).getD j default).score →
      j < i) := by
  refine ⟨List.sorted_insertionSort _ _, List.perm_insertionSort _ _, ?_, ?_⟩
  · intro i j hi hj hbank hsc
    apply lcbsSortStage_pos hi hj
    exact lcbsSortKey_lt_of_bank hbank hsc
  · intro i j hi hj hbank hsc
    apply lcbsSortStage_pos hi hj
    unfold candKey
    rw [hbank]
    exact lcbsSortKey_lt_of_score hsc

/-- C2 witness: with one constraint token, a bank-1 candidate with score
`-50` outranks a bank-0 candidate with score `-10` (gap below 100), as the
amended ranking states; checked both through the theorem and by
evaluation. -/
theorem C2_bank_ranking_witness :
    ((lcbsSortStage 1 [⟨((-10 : ℤ) : WithBot ℤ), 8, 1, 0, default⟩,
        ⟨((-50 : ℤ) : WithBot ℤ), 7, 0, 1, default⟩]).map Cand.bank = [1, 0]) ∧
    List.Sorted (lcbsSortRel 1)
      (lcbsSortStage 1 [⟨((-10 : ℤ) : WithBot ℤ), 8, 1, 0, default⟩,
        ⟨((-50 : ℤ) : WithBot ℤ), 7, 0, 1, default⟩]) :=
  ⟨by decide,
   (C2_bank_ranking 1 [⟨((-10 : ℤ) : WithBot ℤ), 8, 1, 0, default⟩,
      ⟨((-50 : ℤ) : WithBot ℤ), 7, 0, 1, default⟩]).1⟩

/-- C2 counterexample: with one constraint token, the bank-0 candidate with
score `-10` (key `-110`) is ordered *before* the bank-1 constraint-satisfying
candidate with score `-150` (key `-150`), refuting "the candidate with the
strictly higher bank is ordered before the candidate with the lower bank
regardless of any difference in their scores". -/
theorem C2_counterexample :
    (lcbsSortStage 1 [cexC2a, cexC2b]).map Cand.bank = [0, 1] ∧
    (lcbsSortStage 1 [cexC2a, cexC2b]).map Cand.score =
      [((-10 : ℤ) : WithBot ℤ), ((-150 : ℤ) : WithBot ℤ)] := by
  decide

/-! ## Claim C3: end-token suppression for unfinished constraint states -/

section C3Lemmas

variable {α : Type} [LinearOrderedCommRing α]

/-- Adding a cumulative score to every cell commutes with `getD ⊥`, since
`⊥` absorbs addition. -/
theorem getD_map_add (row : List (WithBot α)) (c : WithBot α) (j : ℕ) :
    (row.map (fun x => x + c)).getD j ⊥ = row.getD j ⊥ + c := by
  rcases Nat.lt_or_ge j row.length with h | h
  · rw [List.getD_eq_getElem _ _ (by simpa using h), List.getElem_map,
      List.getD_eq_getElem _ _ h]
  · rw [List.getD_eq_default _ _ (by simpa using h), List.getD_eq_default _ _ h,
      WithBot.bot_add]

/-- `getD` through `mapIdx` at an in-range index. -/
theorem getD_mapIdx_lt {β γ : Type} (dβ : β) {l : List β} {F : ℕ → β → γ}
    {i : ℕ} {dγ : γ} (h : i < l.length) :
    (l.mapIdx F).getD i dγ = F i (l.getD i dβ) := by
  rw [List.getD_eq_getElem _ _ (by simpa using h), List.getElem_mapIdx,
    List.getD_eq_getElem _ _ h]

/-- `getD` through `mapIdx` at an out-of-range index. -/
theorem getD_mapIdx_ge {β γ : Type} (dγ : γ) {l : List β} {F : ℕ → β → γ}
    {i : ℕ} (h : ¬ i < l.length) : (l.mapIdx F).getD i dγ = dγ :=
  List.getD_eq_default _ _ (by simpa using Nat.le_of_not_lt h)

/-- The suppression stage writes `-inf` into the end-token cell of every beam
item whose constraint state is unfinished (when constraints are active and
`step > 0`). -/
theorem suppress_cell_bot {eos : ℕ} {css : List (List CState)} {step : ℕ}
    {lprobs : List (Mat α)} (hcs : css.isEmpty = false) (hstep : 0 < step)
    {sent b : ℕ} {st : CState} (hst : (css.getD sent [])[b]? = some st)
    (hfin : st.finished = false) :
    (((lcbsSuppressEos eos css step lprobs).getD sent []).getD b []).getD
      eos ⊥ = ⊥ := by
  unfold lcbsSuppressEos
  rw [if_pos ⟨hcs, hstep⟩]
  by_cases hs : sent < lprobs.length
  · simp only [getD_mapIdx_lt ([] : Mat α) hs]
    by_cases hb : b < (lprobs.getD sent []).length
    · simp only [getD_mapIdx_lt ([] : List (WithBot α)) hb]
      simp only [hst]
      rw [hfin]
      simp only [Bool.false_eq_true, if_false]
      exact set_bot_getD_self ((lprobs.getD sent []).getD b []) eos
    · rw [getD_mapIdx_ge ([] : List (WithBot α)) hb]
      simp
  · rw [getD_mapIdx_ge ([] : Mat α) hs]
    simp

end C3Lemmas

/-- C3 (amended): when constraints are active and `step > 0`, the end-token
cell of every not-yet-finished beam item in the scored tensor — the tensor
all candidate-generation paths of `step` read — is `-inf`; at `step = 0` the
suppression is skipped entirely and the end token can be emitted as a
candidate with finite score (see `C3_counterexample`). -/
theorem C3_eos_suppression {α : Type} [LinearOrderedCommRing α] (eos : ℕ)
    (css : List (List CState)) (step : ℕ) (lprobs : List (Mat α))
    (scores : Option (List (List (List (WithBot α)))))
    (hcs : css.isEmpty = false) (hstep : 0 < step) :
    ∀ sent b st, (css.getD sent [])[b]? = some st → st.finished = false →
      (((lcbsScored eos css step lprobs scores).getD sent []).getD b []).getD
        eos ⊥ = ⊥ := by
  intro sent b st hst hfin
  have hstep0 : ¬ step = 0 := by omega
  unfold lcbsScored
  rw [if_neg hstep0]
  by_cases hs : sent < (lcbsSuppressEos eos css step lprobs).length
  · simp only [getD_mapIdx_lt ([] : Mat α) hs]
    by_cases hb : b < ((lcbsSuppressEos eos css step lprobs).getD sent
        []).length
    · simp only [getD_mapIdx_lt ([] : List (WithBot α)) hb]
      rw [getD_map_add, suppress_cell_bot hcs hstep hst hfin, WithBot.bot_add]
    · rw [getD_mapIdx_ge ([] : List (WithBot α)) hb]
      simp
  · rw [getD_mapIdx_ge ([] : Mat α) hs]
    simp

/-- C3 witness: eos = 2, step 1, the single beam item's constraint state is
unfinished, and the scored tensor's end-token cell is `-inf`. -/
theorem C3_eos_suppression_witness :
    ([[cstateEx]] : List (List CState)).isEmpty = false ∧
    cstateEx.finished = false ∧
    (((lcbsScored (α := ℤ) 2 [[cstateEx]] 1 lpEx
        (some [[[((2 : ℤ) : WithBot ℤ)]]])).getD 0 []).getD 0 []).getD 2 ⊥ =
      ⊥ :=
  ⟨rfl, rfl,
   C3_eos_suppression 2 [[cstateEx]] 1 lpEx (some [[[((2 : ℤ) : WithBot ℤ)]]])
     rfl (by decide) 0 0 cstateEx rfl rfl⟩

/-- C3 counterexample: at `step = 0` the guard `step > 0` skips the
suppression although the item's constraints are unsatisfied: the end-token
cell keeps its finite score `7`, and the end token (id 2) is returned among
the step's candidate tokens with score `7` — refuting "the end-token
log-probability of that item is set to −inf before candidate selection, so an
item with unsatisfied constraints can never select the end token at that
step" for `step = 0`. -/
theorem C3_counterexample :
    cstateEx.finished = false ∧
    (((lcbsScored (α := ℤ) 2 [[cstateEx]] 0 lpEx none).getD 0 []).getD 0
      []).getD 2 ⊥ = ((7 : ℤ) : WithBot ℤ) ∧
    (lcbsStep lcbsEx 0 lpEx none).2.2.1 = [[1, 2]] ∧
    (lcbsStep lcbsEx 0 lpEx none).2.1 =
      [[((5 : ℤ) : WithBot ℤ), ((7 : ℤ) : WithBot ℤ)]] := by
  refine ⟨rfl, by decide, by decide, by decide⟩

/-! ## Claim C4: deduplication after the (bank, score) sort -/

section C4Lemmas

variable {α : Type}

theorem maskSelect_cons {β : Type} (m : Bool) (ms : List Bool) (x : β)
    (xs : List β) :
    maskSelect (m :: ms) (x :: xs) =
      (if m then [x] else []) ++ maskSelect ms xs := by
  cases m <;> simp [maskSelect, List.filterMap_cons]

/-- On the non-wrap positions the roll mask is the adjacent-difference mask,
and selecting by it is `adjDedup`. -/
theorem maskSelect_adj (sv : ℕ) (l : List (Cand α)) (prev : ℕ) :
    maskSelect (List.zipWith (fun a b => a != b)
      (prev :: (l.map (candId sv)).dropLast) (l.map (candId sv))) l =
    adjDedup sv prev l := by
  induction l generalizing prev with
  | nil => simp [maskSelect, adjDedup]
  | cons c rest ih =>
    cases rest with
    | nil =>
      by_cases h : candId sv c = prev
      · have hb : (prev != candId sv c) = false := by simp [h]
        simp [maskSelect, List.filterMap_cons, adjDedup, h, hb]
      · have hb : (prev != candId sv c) = true := by
          simp only [bne_iff_ne, ne_eq]
          exact fun he => h he.symm
        simp [maskSelect, List.filterMap_cons, adjDedup, h, hb]
    | cons c2 rest2 =>
      have iH := ih (candId sv c)
      rw [List.map_cons] at iH
      rw [List.map_cons, List.map_cons, List.dropLast_cons₂,
        List.zipWith_cons_cons, maskSelect_cons, iH]
      conv_rhs => rw [adjDedup]
      by_cases h : candId sv c = prev
      · rw [if_pos h]
        have hb : (prev != candId sv c) = false := by
          simp [bne_iff_ne]
          exact h.symm
        rw [hb]
        simp
      · rw [if_neg h]
        have hb : (prev != candId sv c) = true := by
          simp [bne_iff_ne]
          exact fun he => h he.symm
        rw [hb]
        simp

/-- Tail of a contiguous list is contiguous. -/
theorem Contig.tail {x : ℕ} {l : List ℕ} (h : Contig (x :: l)) : Contig l := by
  intro k hk j hj i hi heq
  have h2 := h (k + 1) (by simpa using Nat.succ_lt_succ hk) (j + 1)
    (by omega) (i + 1) (by omega) (by simpa using heq)
  simpa using h2

/-- Dropping one copy of a duplicated head preserves contiguity. -/
theorem Contig.collapse {p c : ℕ} {l : List ℕ} (h : Contig (p :: c :: l))
    (hc : c = p) : Contig (p :: l) := by
  intro k hk j hj i hi heq
  have hg : ∀ n, (p :: c :: l).getD (if n = 0 then 0 else n + 1) 0 =
      (p :: l).getD n 0 := by
    intro n
    cases n with
    | zero => simp
    | succ m => simp
  have hk2 : (if k = 0 then 0 else k + 1) < (p :: c :: l).length := by
    simp only [List.length_cons] at hk ⊢
    split <;> omega
  have h2 := h (if k = 0 then 0 else k + 1) hk2 (if j = 0 then 0 else j + 1)
    (by split <;> split <;> omega) (if i = 0 then 0 else i + 1)
    (by split <;> split <;> omega) (by rw [hg, hg]; exact heq)
  rw [hg, hg] at h2
  exact h2

/-- A member of a `ℕ` list is a `getD` value. -/
theorem mem_getD_nat {x : ℕ} {l : List ℕ} (h : x ∈ l) :
    ∃ m, m < l.length ∧ l.getD m 0 = x := by
  rcases List.getElem_of_mem h with ⟨n, hn, he⟩
  exact ⟨n, hn, by rw [List.getD_eq_getElem _ _ hn, he]⟩

/-- Identities surviving `adjDedup` come from the input. -/
theorem adjDedup_ids_sub (sv : ℕ) (l : List (Cand α)) (prev x : ℕ)
    (hx : x ∈ (adjDedup sv prev l).map (candId sv)) :
    x ∈ l.map (candId sv) := by
  induction l generalizing prev with
  | nil => simp [adjDedup] at hx
  | cons c rest ih =>
    rw [adjDedup] at hx
    rw [List.map_append, List.mem_append] at hx
    rcases hx with h1 | h2
    · by_cases h : candId sv c = prev
      · rw [if_pos h] at h1
        simp at h1
      · rw [if_neg h] at h1
        simp at h1
        subst h1
        simp
    · have := ih (candId sv c) h2
      rw [List.map_cons]
      exact List.mem_cons_of_mem _ this

/-- Under contiguity, `adjDedup` survivors have pairwise-distinct identities
and never carry the predecessor's identity. -/
theorem adjDedup_nodup (sv : ℕ) (l : List (Cand α)) (prev : ℕ)
    (h : Contig (prev :: l.map (candId sv))) :
    ((adjDedup sv prev l).map (candId sv)).Nodup ∧
      prev ∉ (adjDedup sv prev l).map (candId sv) := by
  induction l generalizing prev with
  | nil => simp [adjDedup]
  | cons c rest ih =>
    rw [List.map_cons] at h
    by_cases hc : candId sv c = prev
    · have hcol : Contig (prev :: rest.map (candId sv)) := Contig.collapse h hc
      have hrec := ih prev hcol
      simp only [adjDedup, if_pos hc, List.nil_append]
      rw [hc]
      exact hrec
    · have htail := ih (candId sv c) (Contig.tail h)
      constructor
      · simp only [adjDedup, if_neg hc, List.singleton_append, List.map_cons]
        exact List.nodup_cons.mpr ⟨htail.2, htail.1⟩
      · simp only [adjDedup, if_neg hc, List.singleton_append, List.map_cons,
          List.mem_cons]
        rintro (h1 | h2)
        · exact hc h1.symm
        · have hmem2 : prev ∈ rest.map (candId sv) :=
            adjDedup_ids_sub sv rest (candId sv c) prev h2
          rcases mem_getD_nat hmem2 with ⟨m, hm, hgm⟩
          have happ := h (m + 2) (by simp only [List.length_cons]; omega) 1
            (by omega) 0 (by omega)
            (by simp only [List.getD_cons_zero, List.getD_cons_succ]
                exact hgm.symm)
          simp only [List.getD_cons_zero, List.getD_cons_succ] at happ
          exact hc happ

/-- Every input identity either equals the predecessor's or survives. -/
theorem adjDedup_covers (sv : ℕ) (l : List (Cand α)) (prev x : ℕ)
    (hx : x ∈ l.map (candId sv)) :
    x = prev ∨ x ∈ (adjDedup sv prev l).map (candId sv) := by
  induction l generalizing prev with
  | nil => simp at hx
  | cons c rest ih =>
    rw [List.map_cons, List.mem_cons] at hx
    by_cases hc : candId sv c = prev
    · rcases hx with rfl | hx2
      · exact Or.inl hc
      · rcases ih prev hx2 with h1 | h2
        · exact Or.inl h1
        · right
          simp only [adjDedup, if_pos hc, List.nil_append]
          rw [hc]
          exact h2
    · rcases hx with rfl | hx2
      · right
        simp [adjDedup, if_neg hc]
      · rcases ih (candId sv c) hx2 with h1 | h2
        · right
          simp [adjDedup, if_neg hc, h1]
        · right
          simp only [adjDedup, if_neg hc, List.singleton_append,
            List.map_cons, List.mem_cons]
          exact Or.inr h2

/-- Under contiguity, every `adjDedup` survivor sits at the first position of
its identity (no earlier position carries that identity). -/
theorem adjDedup_first (sv : ℕ) (l : List (Cand α)) (prev : ℕ)
    (h : Contig (prev :: l.map (candId sv))) :
    ∀ c2 ∈ adjDedup sv prev l, candId sv c2 ≠ prev ∧
      ∃ i, i < l.length ∧ l.getD i ⟨⊥, 0, 0, 0, default⟩ = c2 ∧
        ∀ i2 < i, (l.map (candId sv)).getD i2 0 ≠ candId sv c2 := by
  induction l generalizing prev with
  | nil => intro c2 hc2; simp [adjDedup] at hc2
  | cons c rest ih =>
    intro c2 hc2
    rw [List.map_cons] at h
    by_cases hc : candId sv c = prev
    · simp only [adjDedup, if_pos hc, List.nil_append] at hc2
      rw [hc] at hc2
      have hcol := Contig.collapse h hc
      obtain ⟨hne, i, hi, hgi, hfirst⟩ := ih prev hcol c2 hc2
      refine ⟨hne, i + 1, by simpa using Nat.succ_lt_succ hi,
        by simpa using hgi, ?_⟩
      intro i2 hi2
      cases i2 with
      | zero =>
        simp only [List.map_cons, List.getD_cons_zero, hc]
        exact fun he => hne he.symm
      | succ m =>
        have := hfirst m (by omega)
        simpa using this
    · simp only [adjDedup, if_neg hc, List.singleton_append] at hc2
      rcases List.mem_cons.mp hc2 with rfl | h2
      · exact ⟨hc, 0, by simp, by simp, fun i2 h2 => absurd h2 (Nat.not_lt_zero _)⟩
      · obtain ⟨hne, i, hi, hgi, hfirst⟩ := ih (candId sv c) (Contig.tail h) c2 h2
        have hnp : candId sv c2 ≠ prev := by
          intro he
          have hmem : candId sv c2 ∈ (adjDedup sv (candId sv c) rest).map
              (candId sv) := List.mem_map_of_mem _ h2
          have hmem2 := adjDedup_ids_sub sv rest (candId sv c) _ hmem
          rw [he] at hmem2
          rcases mem_getD_nat hmem2 with ⟨m, hm, hgm⟩
          have happ := h (m + 2) (by simp only [List.length_cons]; omega) 1
            (by omega) 0 (by omega)
            (by simp only [List.getD_cons_zero, List.getD_cons_succ]
                exact hgm.symm)
          simp only [List.getD_cons_zero, List.getD_cons_succ] at happ
          exact hc happ
        refine ⟨hnp, i + 1, by simpa using Nat.succ_lt_succ hi,
          by simpa using hgi, ?_⟩
        intro i2 hi2
        cases i2 with
        | zero =>
          simp only [List.map_cons, List.getD_cons_zero]
          exact fun he => hne he.symm
        | succ m => simpa using hfirst m (by omega)

/-- Structural form of the roll-mask deduplication on a list whose first and
last identities differ: the head always survives and the rest is adjacent
deduplication. -/
theorem lcbsDedup_eq_adjDedup (sv : ℕ) (c0 : Cand α) (rest : List (Cand α))
    (hfl : candId sv c0 ≠ (((c0 :: rest).map (candId sv)).getLastD 0)) :
    lcbsDedup sv (c0 :: rest) = c0 :: adjDedup sv (candId sv c0) rest := by
  cases rest with
  | nil => exact absurd rfl hfl
  | cons c1 rest2 =>
    have hne : ((c0 :: c1 :: rest2).map (candId sv)) ≠ [] := by simp
    obtain ⟨x, hx⟩ := Option.isSome_iff_exists.mp
      (List.getLast?_isSome.mpr hne)
    have hxd : ((c0 :: c1 :: rest2).map (candId sv)).getLastD 0 = x := by
      rw [List.getLastD_eq_getLast?, hx]
      rfl
    unfold lcbsDedup rollNeMask roll
    rw [hx]
    rw [List.map_cons, List.map_cons, List.dropLast_cons₂]
    rw [List.zipWith_cons_cons, maskSelect_cons]
    have hb : (x != candId sv c0) = true := by
      simp only [bne_iff_ne, ne_eq]
      intro he
      exact hfl (he.symm.trans hxd.symm)
    have hms := maskSelect_adj sv (c1 :: rest2) (candId sv c0)
    rw [List.map_cons] at hms
    rw [hb, if_pos rfl, List.singleton_append, hms]

end C4Lemmas

/-- C4 (amended): on a nonempty sorted candidate list whose first and last
identities differ and whose equal identities are contiguous (both hold for
the roll trick to implement adjacent deduplication; the cyclic comparison
makes `mask[0]` compare the first entry against the *last*), `lcbsDedup`
keeps exactly the first (highest-ranked) occurrence of each
`(sourceSlot, tokenId)` identity: survivor identities are pairwise distinct,
the top-ranked candidate survives in first position, every input identity has
a survivor, and each survivor sits at a position before which its identity
never occurs. Without those side conditions the roll trick misbehaves: see
`C4_counterexample`. -/
theorem C4_dedup {α : Type} (sv : ℕ) (cs : List (Cand α)) (c0 : Cand α)
    (rest : List (Cand α)) (hcs : cs = c0 :: rest)
    (hfl : candId sv c0 ≠ ((cs.map (candId sv)).getLastD 0))
    (hcontig : Contig (cs.map (candId sv))) :
    ((lcbsDedup sv cs).map (candId sv)).Nodup ∧
    (lcbsDedup sv cs).head? = cs.head? ∧
    (∀ x ∈ cs.map (candId sv), x ∈ (lcbsDedup sv cs).map (candId sv)) ∧
    (∀ c2 ∈ lcbsDedup sv cs, ∃ i, i < cs.length ∧
      cs.getD i ⟨⊥, 0, 0, 0, default⟩ = c2 ∧
      ∀ i2 < i, (cs.map (candId sv)).getD i2 0 ≠ candId sv c2) := by
  subst hcs
  have hstruct := lcbsDedup_eq_adjDedup sv c0 rest hfl
  have hcmap : Contig (candId sv c0 :: rest.map (candId sv)) := by
    rw [List.map_cons] at hcontig
    exact hcontig
  refine ⟨?_, ?_, ?_, ?_⟩
  · rw [hstruct, List.map_cons]
    exact List.nodup_cons.mpr
      ⟨(adjDedup_nodup sv rest (candId sv c0) hcmap).2,
       (adjDedup_nodup sv rest (candId sv c0) hcmap).1⟩
  · rw [hstruct]
    rfl
  · intro x hx
    rw [List.map_cons, List.mem_cons] at hx
    rw [hstruct, List.map_cons, List.mem_cons]
    rcases hx with rfl | hx2
    · exact Or.inl rfl
    · rcases adjDedup_covers sv rest (candId sv c0) x hx2 with h1 | h2
      · exact Or.inl h1
      · exact Or.inr h2
  · intro c2 hc2
    rw [hstruct, List.mem_cons] at hc2
    rcases hc2 with rfl | h2
    · exact ⟨0, by simp, by simp, fun i2 h2 => absurd h2 (Nat.not_lt_zero _)⟩
    · obtain ⟨hne, i, hi, hgi, hfirst⟩ :=
        adjDedup_first sv rest (candId sv c0) hcmap c2 h2
      refine ⟨i + 1, by simpa using Nat.succ_lt_succ hi,
        by simpa using hgi, ?_⟩
      intro i2 hi2
      cases i2 with
      | zero =>
        simp only [List.map_cons, List.getD_cons_zero]
        exact fun he => hne he.symm
      | succ m => simpa using hfirst m (by omega)

/-- C4 witness: identities `5, 3, 3` (first ≠ last, runs contiguous); the
survivors have distinct identities and the top candidate stays first. -/
theorem C4_dedup_witness :
    Contig (csW.map (candId 3)) ∧
    ((lcbsDedup 3 csW).map (candId 3)).Nodup ∧
    (lcbsDedup 3 csW).head? = csW.head? :=
  ⟨by decide,
   (C4_dedup 3 csW cW0 [cW1, cW2] rfl (by decide) (by decide)).1,
   (C4_dedup 3 csW cW0 [cW1, cW2] rfl (by decide) (by decide)).2.1⟩

/-- C4 counterexample: a sorted two-candidate list in which both candidates
share one identity. The cyclic roll mask compares the first entry with the
last, so *both* copies are removed — including the top-ranked candidate —
refuting "deduplication keeps the first (highest-ranked) occurrence of each
identity" as an unconditional statement. -/
theorem C4_counterexample :
    List.Sorted (lcbsSortRel 1) [cexC2a, cexC2a] ∧
    (lcbsDedup 9 [cexC2a, cexC2a]).length = 0 := by
  constructor
  · decide
  · decide

/-! ## Claim C5: length-penalty rescoring in `get_rescored_finished` -/

/-- With `current_length = 5` the Google-NMT penalty base is `6/6 = 1`, so
the penalty is `1` for every exponent. -/
theorem lenPenalty_len_five (p : ℝ) : lenPenalty p (4 + 1) = 1 := by
  unfold lenPenalty
  have hbase : (1 + ((4 + 1 : ℕ) : ℝ)) / 6 = 1 := by norm_num
  rw [hbase, Real.one_rpow]

/-- C5: every returned hypothesis carries the raw finished score divided by
`((1 + (timestep+1)) / 6) ^ length_penalty` (and a length-5 hypothesis, i.e.
`timestep = 4`, keeps its raw score for every exponent); the returned list is
sorted descending by adjusted score; the list length is `n_best` capped by the
number of finished records when `n_best` is given and the full count
otherwise; and when nothing finished the call is the same call on the state
with slot 0's last output forced to the end token, which plants the end token
in that cell. -/
theorem C5_rescored_finished (s : TS ℝ) (n_best : Option ℕ) :
    (∀ q ∈ getRescoredFinished s n_best,
      ∃ tl ∈ (if s.finished.isEmpty then forcedTS s else s).finished,
        q.2 = tl.score.map
          (fun x => x / lenPenalty s.length_penalty (tl.timestep + 1)) ∧
        q.1 = prettyHyp (if s.finished.isEmpty then forcedTS s else s)
          tl.timestep tl.hypid) ∧
    (∀ (p : ℝ) (tl : HypTail ℝ), tl.timestep = 4 →
      (rescoreTail p tl).score = tl.score) ∧
    List.Pairwise (fun a b : List ℕ × WithBot ℝ => b.2 ≤ a.2)
      (getRescoredFinished s n_best) ∧
    (∀ n, n_best = some n → (getRescoredFinished s n_best).length =
      min n (if s.finished.isEmpty then forcedTS s else s).finished.length) ∧
    (n_best = none → (getRescoredFinished s n_best).length =
      (if s.finished.isEmpty then forcedTS s else s).finished.length) ∧
    (s.finished.isEmpty = true →
      getRescoredFinished s n_best = getRescoredFinished (forcedTS s) n_best) ∧
    (s.outputs.getLastD [] ≠ [] →
      ((forcedTS s).outputs.getLastD []).getD 0 0 = s.eos) := by
  refine ⟨?_, ?_, ?_, ?_, ?_, ?_, ?_⟩
  · intro q hq
    simp only [getRescoredFinished] at hq
    generalize hgen :
      (if s.finished.isEmpty = true then forcedTS s else s) = s1 at hq ⊢
    have hlp : s1.length_penalty = s.length_penalty := by
      rw [← hgen]
      by_cases h : s.finished.isEmpty <;> simp [h, forcedTS]
    rcases List.mem_map.mp hq with ⟨tl', htl', rfl⟩
    have htl2 : tl' ∈ List.insertionSort tailGE
        (s1.finished.map (rescoreTail s1.length_penalty)) := by
      cases n_best with
      | none => exact htl'
      | some n => exact List.mem_of_mem_take htl'
    rw [(List.perm_insertionSort tailGE _).mem_iff] at htl2
    rcases List.mem_map.mp htl2 with ⟨tl, htl, rfl⟩
    refine ⟨tl, htl, ?_, rfl⟩
    simp only [← hlp]
    rfl
  · intro p tl ht
    have h1 : lenPenalty p (tl.timestep + 1) = 1 := by
      rw [ht]
      exact lenPenalty_len_five p
    simp only [rescoreTail, h1]
    induction tl.score using WithBot.recBotCoe with
    | bot => simp
    | coe x => simp
  · simp only [getRescoredFinished]
    rw [List.pairwise_map]
    have hsort := List.sorted_insertionSort tailGE
      ((if s.finished.isEmpty then forcedTS s else s).finished.map
        (rescoreTail
          (if s.finished.isEmpty then forcedTS s else s).length_penalty))
    cases n_best with
    | none => exact hsort.imp (fun h => h)
    | some n =>
      exact (List.Pairwise.sublist (List.take_sublist n _) hsort).imp
        (fun h => h)
  · intro n hn
    subst hn
    simp only [getRescoredFinished]
    rw [List.length_map, List.length_take,
      (List.perm_insertionSort tailGE _).length_eq, List.length_map]
  · intro hn
    subst hn
    simp only [getRescoredFinished]
    rw [List.length_map, (List.perm_insertionSort tailGE _).length_eq,
      List.length_map]
  · intro hemp
    have h2 : (forcedTS s).finished.isEmpty = false := by
      simp [forcedTS]
    simp only [getRescoredFinished, hemp, if_true, h2, Bool.false_eq_true,
      if_false]
  · intro hne
    simp only [forcedTS]
    rw [List.getLastD_concat]
    have h0 : 0 < (s.outputs.getLastD []).length := List.length_pos.mpr hne
    rw [List.getD_eq_getElem _ _ (by simpa using h0), List.getElem_set_self]

/-- C5 witness: on a fresh two-slot beam state (nothing finished), forcing
plants the end token in slot 0 of the last output row, and asking for the
single best hypothesis returns exactly `min 1 #finished` items. -/
theorem C5_rescored_finished_witness :
    (sampleTS ℝ 2 0).outputs.getLastD [] ≠ [] ∧
    ((forcedTS (sampleTS ℝ 2 0)).outputs.getLastD []).getD 0 0 =
      (sampleTS ℝ 2 0).eos ∧
    (getRescoredFinished (sampleTS ℝ 2 0) (some 1)).length =
      min 1 (if (sampleTS ℝ 2 0).finished.isEmpty then
        forcedTS (sampleTS ℝ 2 0) else sampleTS ℝ 2 0).finished.length :=
  ⟨by decide,
   (C5_rescored_finished (sampleTS ℝ 2 0) (some 1)).2.2.2.2.2.2 (by decide),
   (C5_rescored_finished (sampleTS ℝ 2 0) (some 1)).2.2.2.1 1 rfl⟩

/-! ## Claim C8: the maximum-length bound is the only hard stop -/

/-- C8: every `select_paths` call with `step ≥ max_len` fails a fatal
assertion (whatever the search state, scores, or remaining-sentence count);
with `step < max_len` and a consistent remaining count the call passes the
asserts and returns the inner step's result; and (under the in-range assert)
a sentence is finished exactly when it has `beam_size` finalized hypotheses
or `step` equals `max_len`, while an over-full finalized list is itself a
fatal assertion. -/
theorem C8_max_len_hard_stop {α : Type} [LinearOrderedCommRing α] :
    (∀ (S : LCBS) (num : ℤ) (nf max_len step : ℕ) (lprobs : List (Mat α))
      (scores : Option (List (List (List (WithBot α))))),
      max_len ≤ step →
      ∃ msg, cbsSelectPaths S num nf max_len step lprobs scores =
        Except.error msg) ∧
    (∀ (S : LCBS) (num : ℤ) (nf max_len step : ℕ) (lprobs : List (Mat α))
      (scores : Option (List (List (List (WithBot α))))),
      0 ≤ num - (nf : ℤ) → step < max_len →
      cbsSelectPaths S num nf max_len step lprobs scores =
        Except.ok (lcbsStep S step lprobs scores)) ∧
    (∀ step max_len len beam, len ≤ beam →
      (cbsIsFinished step max_len len beam = Except.ok true ↔
        (len = beam ∨ step = max_len))) ∧
    (∀ step max_len len beam, beam < len →
      ∃ msg, cbsIsFinished step max_len len beam = Except.error msg) := by
  refine ⟨?_, ?_, ?_, ?_⟩
  · intro S num nf max_len step lprobs scores hstep
    unfold cbsSelectPaths
    by_cases h : (0 : ℤ) ≤ num - (nf : ℤ)
    · rw [if_pos h, if_neg (by omega)]
      exact ⟨_, rfl⟩
    · rw [if_neg h]
      exact ⟨_, rfl⟩
  · intro S num nf max_len step lprobs scores hnum hstep
    unfold cbsSelectPaths
    rw [if_pos hnum, if_pos hstep]
  · intro step max_len len beam hle
    unfold cbsIsFinished
    rw [if_pos hle]
    constructor
    · intro h
      have h2 : (len == beam || step == max_len) = true := by
        injection h
      simp only [Bool.or_eq_true, beq_iff_eq] at h2
      exact h2
    · intro h
      have h2 : (len == beam || step == max_len) = true := by
        simp only [Bool.or_eq_true, beq_iff_eq]
        exact h
      rw [h2]
  · intro step max_len len beam hgt
    unfold cbsIsFinished
    rw [if_neg (by omega)]
    exact ⟨_, rfl⟩

/-- C8 witness: at `step = max_len = 3` the call errors; at `step = 0 <
max_len` it returns the step result; a sentence with a full beam of 2
finalized hypotheses is finished. -/
theorem C8_max_len_hard_stop_witness :
    (3 : ℕ) ≤ 3 ∧
    (∃ msg, cbsSelectPaths (α := ℤ) lcbsEx 1 0 3 3 lpEx none =
      Except.error msg) ∧
    cbsSelectPaths (α := ℤ) lcbsEx 1 0 3 0 lpEx none =
      Except.ok (lcbsStep lcbsEx 0 lpEx none) ∧
    (cbsIsFinished 1 3 2 2 = Except.ok true ↔ ((2 : ℕ) = 2 ∨ (1 : ℕ) = 3)) :=
  ⟨by decide,
   (C8_max_len_hard_stop (α := ℤ)).1 lcbsEx 1 0 3 3 lpEx none (by decide),
   (C8_max_len_hard_stop (α := ℤ)).2.1 lcbsEx 1 0 3 0 lpEx none (by decide)
     (by decide),
   (C8_max_len_hard_stop (α := ℤ)).2.2.1 1 3 2 2 (by decide)⟩

/-! ## Claim C6: chain reconstruction and selection lemmas -/

section C6ChainLemmas

/-- Unfolding of `chainToks` at a successor timestep. -/
theorem chainToks_succ (bk out : List (List ℕ)) (t h : ℕ) :
    chainToks bk out (t + 1) h =
      chainToks bk out t ((bk.getD t []).getD h 0) ++
        [(out.getD (t + 1) []).getD h 0] := rfl

/-- `chainToks` only reads output rows `0..t` and bookkeeping rows
`0..t-1`. -/
theorem chainToks_congr (bk bk2 out out2 : List (List ℕ)) :
    ∀ (t h : ℕ), (∀ i, i ≤ t → out2.getD i [] = out.getD i []) →
      (∀ i, i < t → bk2.getD i [] = bk.getD i []) →
      chainToks bk2 out2 t h = chainToks bk out t h
  | 0, h, hout, _ => by
    unfold chainToks
    rw [hout 0 (le_refl 0)]
  | t + 1, h, hout, hbk => by
    rw [chainToks_succ, chainToks_succ,
      chainToks_congr bk bk2 out out2 t _ (fun i hi => hout i (by omega))
        (fun i hi => hbk i (by omega)),
      hout (t + 1) (le_refl _), hbk t (by omega)]

/-- Appending a step leaves earlier chains unchanged. -/
theorem chainToks_append {bk out : List (List ℕ)} {b1 o1 : List ℕ} {t h : ℕ}
    (hout : t < out.length) (hbk : t ≤ bk.length) :
    chainToks (bk ++ [b1]) (out ++ [o1]) t h = chainToks bk out t h := by
  apply chainToks_congr
  · intro i hi
    exact List.getD_append _ _ _ _ (by omega)
  · intro i hi
    exact List.getD_append _ _ _ _ (by omega)

/-- `_get_pretty_hypothesis ∘ _get_hyp_from_finished` is exactly the
chronological token chain. -/
theorem prettyHyp_eq_chainToks {α : Type} [LinearOrderedCommRing α]
    (s : TS α) : ∀ (t h : ℕ),
    prettyHyp s t h = chainToks s.bookkeep s.outputs t h
  | 0, h => rfl
  | t + 1, h => by
    unfold prettyHyp getHypTails
    simp only [List.reverse_cons, List.map_append, List.map_cons,
      List.map_nil]
    rw [chainToks_succ]
    congr 1
    exact prettyHyp_eq_chainToks s t ((s.bookkeep.getD t []).getD h 0)

end C6ChainLemmas

section C6TopkLemmas

variable {α : Type} [LinearOrderedCommRing α]

/-- When every entry is `-inf`, the ranked list is the index list itself
(stability: ties keep index order). -/
theorem rankedIdx_all_bot {v : List (WithBot α)}
    (hall : ∀ j, j < v.length → v.getD j ⊥ = ⊥) :
    rankedIdx v = idxList v := by
  apply List.Sorted.insertionSort_eq
  unfold idxList
  have h1 : List.Pairwise
      (fun a b => rankRel (a, v.getD a ⊥) (b, v.getD b ⊥))
      (List.range v.length) := by
    refine List.Pairwise.imp_of_mem ?_ (List.pairwise_lt_range v.length)
    intro a b ha hb hlt
    rw [List.mem_range] at ha hb
    right
    exact ⟨by rw [hall a ha, hall b hb], le_of_lt hlt⟩
  exact List.Pairwise.map _ (fun a b h => h) h1

/-- When every entry is `-inf`, the best index returned by `topk` is 0. -/
theorem topkIdx_head_all_bot {v : List (WithBot α)} {k : ℕ}
    (hne : v ≠ []) (hk : 0 < k)
    (hall : ∀ j, j < v.length → v.getD j ⊥ = ⊥) :
    (topkIdx v k).getD 0 0 = 0 := by
  unfold topkIdx
  rw [rankedIdx_all_bot hall]
  unfold idxList
  cases v with
  | nil => exact absurd rfl hne
  | cons a rest =>
    cases k with
    | zero => omega
    | succ k2 =>
      rw [List.length_cons, List.range_succ_eq_map]
      simp

/-- The first `topk` value dominates every entry of the vector. -/
theorem topkVal_head_max {v : List (WithBot α)} {k j : ℕ}
    (hk : 0 < k) (hj : j < v.length) :
    v.getD j ⊥ ≤ (topkVal v k).getD 0 ⊥ := by
  obtain ⟨p0, rs, hR⟩ : ∃ p0 rs, rankedIdx v = p0 :: rs := by
    cases hRc : rankedIdx v with
    | nil =>
      have := length_rankedIdx v
      rw [hRc] at this
      simp at this
      omega
    | cons a b => exact ⟨a, b, rfl⟩
  have hhead : (topkVal v k).getD 0 ⊥ = p0.2 := by
    unfold topkVal
    rw [hR]
    cases k with
    | zero => omega
    | succ k2 => simp
  rw [hhead]
  have hq : (j, v.getD j ⊥) ∈ rankedIdx v := mem_rankedIdx.mpr ⟨hj, rfl⟩
  rw [hR] at hq
  rcases List.mem_cons.mp hq with heq | hqrs
  · rw [← heq]
  · have hsort := sorted_rankedIdx v
    rw [hR] at hsort
    have hrel := List.rel_of_sorted_cons hsort _ hqrs
    rcases hrel with hlt | ⟨heq2, _⟩
    · exact le_of_lt hlt
    · exact le_of_eq heq2.symm

/-- A non-`-inf` entry of the dead-slot-penalized prior decodes to a live
slot whose last output was not the end token. -/
theorem deadSlotPenalty_getD_ne_bot {sc : List (WithBot α)} {lo : List ℕ}
    {e p : ℕ} (h : ¬ (deadSlotPenalty sc lo e).getD p ⊥ = ⊥) :
    ¬ sc.getD p ⊥ ≤ ⊥ ∧ lo.getD p 0 ≠ e ∧
      (deadSlotPenalty sc lo e).getD p ⊥ = sc.getD p ⊥ := by
  by_cases hp : p < sc.length
  · have hval : (deadSlotPenalty sc lo e).getD p ⊥ =
        (if lo.getD p 0 = e then (⊥ : WithBot α) else sc.getD p ⊥) := by
      unfold deadSlotPenalty
      rw [List.getD_eq_getElem _ _ (by simpa using hp), List.getElem_mapIdx,
        List.getD_eq_getElem _ _ hp]
    by_cases hlo : lo.getD p 0 = e
    · rw [hval, if_pos hlo] at h
      exact absurd rfl h
    · rw [hval, if_neg hlo] at h
      rw [if_neg hlo] at hval
      exact ⟨fun hle => h (le_bot_iff.mp hle), hlo, hval⟩
  · exfalso
    apply h
    apply List.getD_eq_default
    simpa [deadSlotPenalty] using Nat.le_of_not_lt hp

end C6TopkLemmas

section C6Invariant

variable {α : Type} [LinearOrderedCommRing α]

/-- Counting the end token in a singleton chain. -/
theorem count_singleton_eos (eos x : ℕ) :
    List.count eos [x] = if x = eos then 1 else 0 := by
  simp [List.count_cons]

/-- The freshly initialized state satisfies the invariant. -/
theorem TSInv_init (beam V : ℕ) (bn cbn : ℤ) (pad bos eos minLen : ℕ)
    (lpp : α) (heos0 : eos ≠ 0) (heb : eos ≠ bos) :
    TSInv beam V (initTS beam bn cbn pad bos eos minLen lpp) := by
  refine ⟨rfl, by simp [initTS], by simp [initTS], by simp [initTS],
    Or.inl (by simp [initTS]), ?_, ?_, ?_⟩
  · intro tl htl
    simp [initTS] at htl
  · intro h hh
    cases h with
    | zero =>
      show List.count eos [(List.replicate beam bos).getD 0 0] =
        if (List.replicate beam bos).getD 0 0 = eos then 1 else 0
      exact count_singleton_eos eos _
    | succ h2 =>
      exact absurd (le_refl (⊥ : WithBot α)) hh
  · intro _
    show List.count eos [(List.replicate beam bos).getD 0 0] = 0
    rw [count_singleton_eos]
    cases beam with
    | zero =>
      simp only [List.replicate, List.getD_nil]
      rw [if_neg (fun he => heos0 he.symm)]
    | succ b2 =>
      simp only [List.replicate, List.getD_cons_zero]
      rw [if_neg (fun he => heb he.symm)]

/-- Core invariant-preservation argument, stated on the field-level
description of the post-`advance` state.  `halive2` packages what the Beam
policy guarantees about a slot selected with a non-`-inf` score (its parent
was live and had not just emitted the end token) and `hbot0` what it
guarantees about slot 0 when even the best score is `-inf` (all entries were
`-inf`, so the stable top-1 is flat index 0, whose token is 0 ≠ eos). -/
theorem TSInv_advance_core {beam V : ℕ} {s s2 : TS α}
    {hyp_ids tok_ids : List ℕ} {new_scores : List (WithBot α)}
    (hbeam : 1 ≤ beam)
    (hol : 1 ≤ s.outputs.length)
    (hbkl : s.bookkeep.length + 1 = s.outputs.length)
    (hfin : ∀ tl ∈ s.finished, tl.timestep + 1 ≤ s.outputs.length ∧
      (chainToks s.bookkeep s.outputs tl.timestep tl.hypid).count s.eos = 1)
    (halive : ∀ h, ¬ (s.scores.getD [(0 : WithBot α)]).getD h ⊥ ≤ ⊥ →
      (chainToks s.bookkeep s.outputs (s.outputs.length - 1) h).count s.eos =
        (if (s.outputs.getLastD []).getD h 0 = s.eos then 1 else 0))
    (hnof : s.finished = [] →
      (chainToks s.bookkeep s.outputs (s.outputs.length - 1) 0).count
        s.eos = 0)
    (hs2out : s2.outputs = s.outputs ++ [tok_ids])
    (hs2bk : s2.bookkeep = s.bookkeep ++ [hyp_ids])
    (hs2sc : s2.scores = some new_scores)
    (hs2fin : s2.finished = s.finished ++
      (List.range beam).filterMap (fun h =>
        if tok_ids.getD h 0 = s.eos ∧ ¬ new_scores.getD h ⊥ ≤ ⊥ then
          some ⟨(s.outputs ++ [tok_ids]).length - 1, h,
            new_scores.getD h ⊥, s.eos⟩
        else none))
    (hs2beam : s2.beam_size = beam) (hs2eos : s2.eos = s.eos)
    (hlen1 : tok_ids.length = beam) (hlen2 : hyp_ids.length = beam)
    (hlen3 : new_scores.length = beam)
    (halive2 : ∀ h, ¬ new_scores.getD h ⊥ ≤ ⊥ →
      ¬ (s.scores.getD [(0 : WithBot α)]).getD (hyp_ids.getD h 0) ⊥ ≤ ⊥ ∧
      (s.outputs.getLastD []).getD (hyp_ids.getD h 0) 0 ≠ s.eos)
    (hbot0 : new_scores.getD 0 ⊥ ≤ ⊥ → hyp_ids.getD 0 0 = 0 ∧
      tok_ids.getD 0 0 ≠ s.eos) :
    TSInv beam V s2 := by
  obtain ⟨L, hL⟩ : ∃ L, s.outputs.length = L + 1 :=
    ⟨s.outputs.length - 1, by omega⟩
  have hbklen : s.bookkeep.length = L := by omega
  -- the one-step chain decomposition
  have hchain : ∀ h, chainToks s2.bookkeep s2.outputs
      (s2.outputs.length - 1) h =
      chainToks s.bookkeep s.outputs (s.outputs.length - 1)
        (hyp_ids.getD h 0) ++ [tok_ids.getD h 0] := by
    intro h
    rw [hs2out, hs2bk]
    have hlen : (s.outputs ++ [tok_ids]).length = L + 2 := by
      simp [hL]
    rw [hlen]
    have hstep : L + 2 - 1 = L + 1 := by omega
    rw [hstep, chainToks_succ]
    have h1 : ((s.bookkeep ++ [hyp_ids]).getD L []) = hyp_ids := by
      rw [← hbklen, List.getD_append_right _ _ _ _ (le_refl _)]
      simp
    have h2 : ((s.outputs ++ [tok_ids]).getD (L + 1) []) = tok_ids := by
      rw [← hL, List.getD_append_right _ _ _ _ (le_refl _)]
      simp
    rw [h1, h2, chainToks_append (by omega) (by omega), hL]
    simp
  -- old chains embed unchanged
  have hold : ∀ t h, t + 1 ≤ s.outputs.length →
      chainToks s2.bookkeep s2.outputs t h =
        chainToks s.bookkeep s.outputs t h := by
    intro t h ht
    rw [hs2out, hs2bk]
    exact chainToks_append (by omega) (by omega)
  refine ⟨hs2beam, ?_, ?_, ?_, ?_, ?_, ?_, ?_⟩
  · rw [hs2out]
    simp
  · rw [hs2out, hs2bk]
    simp
    omega
  · rw [hs2out, List.getLastD_concat]
    exact hlen1
  · right
    rw [hs2sc]
    exact hlen3
  · -- P1: finished records
    intro tl htl
    rw [hs2fin, List.mem_append] at htl
    rcases htl with hmem | hmem
    · obtain ⟨ht, hc⟩ := hfin tl hmem
      refine ⟨by rw [hs2out]; simp; omega, ?_⟩
      rw [hs2eos, hold tl.timestep tl.hypid ht]
      exact hc
    · rw [List.mem_filterMap] at hmem
      obtain ⟨h, hh, heq⟩ := hmem
      by_cases hcond : tok_ids.getD h 0 = s.eos ∧ ¬ new_scores.getD h ⊥ ≤ ⊥
      · rw [if_pos hcond] at heq
        injection heq with heq2
        subst heq2
        constructor
        · rw [hs2out]
          simp
        · have htstep : (s.outputs ++ [tok_ids]).length - 1 =
              s2.outputs.length - 1 := by
            rw [hs2out]
          simp only [htstep]
          rw [hs2eos, hchain h]
          obtain ⟨hpal, hplo⟩ := halive2 h hcond.2
          rw [List.count_append, halive _ hpal, if_neg hplo,
            count_singleton_eos, if_pos hcond.1]
      · rw [if_neg hcond] at heq
        exact absurd heq (by simp)
  · -- P2 on the new state
    intro h hal
    have hns : s2.scores.getD [(0 : WithBot α)] = new_scores := by
      rw [hs2sc]
      rfl
    rw [hns] at hal
    rw [hchain h, hs2eos, hs2out, List.getLastD_concat]
    obtain ⟨hpal, hplo⟩ := halive2 h hal
    rw [List.count_append, halive _ hpal, if_neg hplo,
      count_singleton_eos]
    simp
  · -- P3 on the new state
    intro hempty
    rw [hs2fin] at hempty
    rcases List.append_eq_nil.mp hempty with ⟨hemp1, hemp2⟩
    rw [hchain 0, hs2eos, List.count_append]
    by_cases hb : new_scores.getD 0 ⊥ ≤ ⊥
    · obtain ⟨hp0, ht0⟩ := hbot0 hb
      rw [hp0, hnof hemp1, count_singleton_eos, if_neg ht0]
    · obtain ⟨hpal, hplo⟩ := halive2 0 hb
      have ht0 : tok_ids.getD 0 0 ≠ s.eos := by
        intro hcon
        have h0 : (0 : ℕ) ∈ List.range beam := by
          rw [List.mem_range]
          omega
        have := List.filterMap_eq_nil_iff.mp hemp2 0 h0
        rw [if_pos ⟨hcon, hb⟩] at this
        exact absurd this (by simp)
      rw [halive _ hpal, if_neg hplo, count_singleton_eos, if_neg ht0]

end C6Invariant

section C6Advance

variable {α : Type} [LinearOrderedCommRing α]

/-- One Beam-policy `advance` call preserves the invariant. -/
theorem TSInv_advance {beam V : ℕ} {s : TS α} {m : Mat α}
    (hbeam : 1 ≤ beam) (hbv : beam ≤ V) (heos0 : s.eos ≠ 0)
    (hinv : TSInv beam V s) (hm : m.length = beam)
    (hmr : ∀ r ∈ m, r.length = V) :
    TSInv beam V (advanceStep beamSelect s m) := by
  obtain ⟨hbs, hol, hbkl, hlast, hsc, hfin, halive, hnof⟩ := hinv
  have hV : 0 < V := lt_of_lt_of_le hbeam hbv
  have hMlen : (maskLogprobs s m).length = beam := by
    rw [maskLogprobs_length, hm]
  have hMr : ∀ r ∈ maskLogprobs s m, r.length = V := maskLogprobs_rows hmr
  have hMne : maskLogprobs s m ≠ [] := by
    intro hcon
    rw [hcon] at hMlen
    simp at hMlen
    omega
  have hPlen : (priorOf s).length =
      (s.scores.getD [(0 : WithBot α)]).length := by
    unfold priorOf
    exact deadSlotPenalty_length _ _ _
  have hpr : (priorOf s).length = 1 ∨
      (priorOf s).length = (maskLogprobs s m).length := by
    rcases hsc with h | h
    · exact Or.inl (by rw [hPlen, h])
    · exact Or.inr (by rw [hPlen, h, hMlen])
  have hsel := beamSelect_eq s (maskLogprobs s m) (priorOf s)
    (s.all_scores.length - 1) hMr hMne
  have hrowsC : (collapseRows (maskLogprobs s m) (priorOf s)).length =
      (priorOf s).length := collapseRows_length_eq_prior hMne hpr
  have hflatlen : (beamFlat (maskLogprobs s m) (priorOf s)).length =
      (collapseRows (maskLogprobs s m) (priorOf s)).length * V :=
    beamFlat_length hMr hMne hpr
  have hkb : beam ≤ (beamFlat (maskLogprobs s m) (priorOf s)).length := by
    rw [hflatlen, hrowsC]
    rcases hpr with h | h
    · rw [h]
      omega
    · rw [h, hMlen]
      calc beam = beam * 1 := by ring
        _ ≤ beam * V := Nat.mul_le_mul_left _ hV
  have hidxlen :
      (topkIdx (beamFlat (maskLogprobs s m) (priorOf s)) s.beam_size).length
        = beam := by
    rw [topkIdx_length, hbs]
    omega
  have hvallen :
      (topkVal (beamFlat (maskLogprobs s m) (priorOf s)) s.beam_size).length
        = beam := by
    rw [topkVal_length, hbs]
    omega
  -- the decoded live-parent fact for any slot with a finite selected score
  have hkey : ∀ h : ℕ,
      ¬ (topkVal (beamFlat (maskLogprobs s m) (priorOf s))
          s.beam_size).getD h ⊥ ≤ ⊥ →
      ¬ (s.scores.getD [(0 : WithBot α)]).getD
          (((topkIdx (beamFlat (maskLogprobs s m) (priorOf s))
            s.beam_size).map (· / V)).getD h 0) ⊥ ≤ ⊥ ∧
      (s.outputs.getLastD []).getD
          (((topkIdx (beamFlat (maskLogprobs s m) (priorOf s))
            s.beam_size).map (· / V)).getD h 0) 0 ≠ s.eos := by
    intro h hal
    have hhlt : h < (topkVal (beamFlat (maskLogprobs s m) (priorOf s))
        s.beam_size).length := by
      by_contra hge
      exact hal (by rw [List.getD_eq_default _ _ (Nat.le_of_not_lt hge)])
    have hhidx : h < (topkIdx (beamFlat (maskLogprobs s m) (priorOf s))
        s.beam_size).length := by
      rw [hidxlen]
      rw [hvallen] at hhlt
      exact hhlt
    have hval := topkVal_getD (beamFlat (maskLogprobs s m) (priorOf s))
      s.beam_size h hhidx
    have hidxmem := topkIdx_getD_mem (beamFlat (maskLogprobs s m) (priorOf s))
      s.beam_size h hhidx
    have hidxlt := topkIdx_lt_length hidxmem
    have hjlt : (topkIdx (beamFlat (maskLogprobs s m) (priorOf s))
        s.beam_size).getD h 0 <
        (collapseRows (maskLogprobs s m) (priorOf s)).length * V := by
      rw [← hflatlen]
      exact hidxlt
    have hflatval := beamFlat_getD hV hMr hMne hpr hjlt
    rw [hval, hflatval] at hal
    have hprbot : ¬ (priorOf s).getD
        ((topkIdx (beamFlat (maskLogprobs s m) (priorOf s))
          s.beam_size).getD h 0 / V) ⊥ = ⊥ := by
      intro hcon
      rw [hcon, WithBot.add_bot] at hal
      exact hal (le_refl _)
    unfold priorOf at hprbot
    have hdec := deadSlotPenalty_getD_ne_bot hprbot
    rw [getD_map_div _ _ _ hhidx]
    exact ⟨hdec.1, hdec.2.1⟩
  -- all-bot analysis of slot 0
  have hbot : (topkVal (beamFlat (maskLogprobs s m) (priorOf s))
        s.beam_size).getD 0 ⊥ ≤ ⊥ →
      ((topkIdx (beamFlat (maskLogprobs s m) (priorOf s))
        s.beam_size).map (· / V)).getD 0 0 = 0 ∧
      ((topkIdx (beamFlat (maskLogprobs s m) (priorOf s))
        s.beam_size).map (· % V)).getD 0 0 ≠ s.eos := by
    intro hb
    have hk0 : 0 < s.beam_size := by omega
    have hfpos : 0 < (beamFlat (maskLogprobs s m) (priorOf s)).length := by
      omega
    have hall : ∀ j, j < (beamFlat (maskLogprobs s m) (priorOf s)).length →
        (beamFlat (maskLogprobs s m) (priorOf s)).getD j ⊥ = ⊥ := by
      intro j hj
      have := topkVal_head_max (k := s.beam_size) hk0 hj
      exact le_bot_iff.mp (le_trans this hb)
    have hfne : beamFlat (maskLogprobs s m) (priorOf s) ≠ [] := by
      intro hcon
      rw [hcon] at hfpos
      simp at hfpos
    have hhead := topkIdx_head_all_bot hfne hk0 hall
    have h0idx : 0 < (topkIdx (beamFlat (maskLogprobs s m) (priorOf s))
        s.beam_size).length := by
      omega
    constructor
    · rw [getD_map_div _ _ _ h0idx, hhead]
      exact Nat.zero_div V
    · rw [getD_map_mod _ _ _ h0idx, hhead]
      rw [Nat.zero_mod]
      exact fun hcon => heos0 hcon.symm
  -- instantiate the core lemma
  refine TSInv_advance_core hbeam hol hbkl hfin halive hnof
    ?_ ?_ ?_ ?_ ?_ ?_ ?_ ?_ ?_ hkey hbot
  · rw [advance_outputs, hsel]
  · rw [advance_bookkeep, hsel]
  · rw [advance_scores, hsel]
  · rw [advance_finished, hsel, hbs]
  · rw [advance_beam_size]
    exact hbs
  · exact advance_eos beamSelect s m
  · rw [List.length_map, hidxlen]
  · rw [List.length_map, hidxlen]
  · exact hvallen

end C6Advance

section C6Assembly

variable {α : Type} [LinearOrderedCommRing α]

/-- The end-token id never changes along a run. -/
theorem foldl_eos (sel : SelectFn α) :
    ∀ (mats : List (Mat α)) (s : TS α),
      (List.foldl (advanceStep sel) s mats).eos = s.eos
  | [], _ => rfl
  | m :: tl, s => by
    rw [List.foldl_cons, foldl_eos sel tl (advanceStep sel s m), advance_eos]

/-- The invariant holds after any sequence of well-shaped Beam advances. -/
theorem TSInv_foldl {beam V : ℕ} :
    ∀ (mats : List (Mat α)) (s : TS α), 1 ≤ beam → beam ≤ V → s.eos ≠ 0 →
      TSInv beam V s →
      (∀ m ∈ mats, m.length = beam ∧ ∀ r ∈ m, r.length = V) →
      TSInv beam V (List.foldl (advanceStep beamSelect) s mats)
  | [], s, _, _, _, hinv, _ => hinv
  | m :: tl, s, hbeam, hbv, heos, hinv, hsh => by
    rw [List.foldl_cons]
    refine TSInv_foldl tl _ hbeam hbv ?_ ?_ ?_
    · rw [advance_eos]
      exact heos
    · exact TSInv_advance hbeam hbv heos hinv
        (hsh m (List.mem_cons_self _ _)).1 (hsh m (List.mem_cons_self _ _)).2
    · intro m2 hm2
      exact hsh m2 (List.mem_cons_of_mem _ hm2)

/-- `dropLast` keeps earlier rows. -/
theorem getD_dropLast_mat (out : List (List ℕ)) (i : ℕ)
    (hi : i < out.length - 1) :
    out.dropLast.getD i [] = out.getD i [] := by
  rw [List.getD_eq_getElem _ _ (by rw [List.length_dropLast]; exact hi),
    List.getD_eq_getElem _ _ (by omega), List.getElem_dropLast]

/-- When nothing ever finished, the synthesized record reconstructs to a
chain carrying the end token exactly once. -/
theorem forced_count {beam V : ℕ} {s : TS α} (hbeam : 1 ≤ beam)
    (hinv : TSInv beam V s) (hemp : s.finished = []) :
    ∀ tl ∈ (forcedTS s).finished,
      (chainToks (forcedTS s).bookkeep (forcedTS s).outputs
        tl.timestep tl.hypid).count (forcedTS s).eos = 1 := by
  obtain ⟨hbs, hol, hbkl, hlast, hsc, hfin, halive, hnof⟩ := hinv
  intro tl htl
  have hfin2 : (forcedTS s).finished =
      [⟨s.outputs.length - 1, 0, (s.all_scores.getLastD []).getD 0 ⊥,
        ((s.outputs.getLastD []).set 0 s.eos).getD 0 0⟩] := by
    show s.finished ++ [_] = [_]
    rw [hemp, List.nil_append]
  rw [hfin2, List.mem_singleton] at htl
  subst htl
  have hout : (forcedTS s).outputs =
      s.outputs.dropLast ++ [(s.outputs.getLastD []).set 0 s.eos] := rfl
  have hbk : (forcedTS s).bookkeep = s.bookkeep := rfl
  have heosf : (forcedTS s).eos = s.eos := rfl
  have hrowlen : 0 < (s.outputs.getLastD []).length := by omega
  have hnewhead : ((s.outputs.getLastD []).set 0 s.eos).getD 0 0 = s.eos := by
    rw [List.getD_eq_getElem _ _ (by simpa using hrowlen),
      List.getElem_set_self]
  rw [hout, hbk, heosf]
  rcases Nat.lt_or_ge s.outputs.length 2 with hlen2 | hlen2
  · -- exactly one output row
    have hlen1 : s.outputs.length = 1 := by omega
    have hdl : s.outputs.dropLast = [] := by
      rw [← List.length_eq_zero, List.length_dropLast, hlen1]
    rw [hlen1]
    show List.count s.eos
      [((s.outputs.dropLast ++ [(s.outputs.getLastD []).set 0 s.eos]).getD
        0 []).getD 0 0] = 1
    rw [hdl, List.nil_append]
    show List.count s.eos [((s.outputs.getLastD []).set 0 s.eos).getD 0 0] = 1
    rw [hnewhead, count_singleton_eos, if_pos rfl]
  · obtain ⟨L, hL⟩ : ∃ L, s.outputs.length = L + 2 :=
      ⟨s.outputs.length - 2, by omega⟩
    have hdll : s.outputs.dropLast.length = L + 1 := by
      rw [List.length_dropLast]
      omega
    have hstep : s.outputs.length - 1 = L + 1 := by omega
    rw [hstep, chainToks_succ]
    have hlastrow : ((s.outputs.dropLast ++
        [(s.outputs.getLastD []).set 0 s.eos]).getD (L + 1) []) =
        (s.outputs.getLastD []).set 0 s.eos := by
      rw [← hdll, List.getD_append_right _ _ _ _ (le_refl _)]
      simp
    have hpre : chainToks s.bookkeep
        (s.outputs.dropLast ++ [(s.outputs.getLastD []).set 0 s.eos]) L
        ((s.bookkeep.getD L []).getD 0 0) =
        chainToks s.bookkeep s.outputs L ((s.bookkeep.getD L []).getD 0 0) := by
      apply chainToks_congr
      · intro i hi
        rw [List.getD_append _ _ _ _ (by omega)]
        exact getD_dropLast_mat _ _ (by omega)
      · intro i _
        rfl
    rw [hlastrow, hpre, hnewhead]
    have h0 := hnof hemp
    rw [hstep, chainToks_succ, List.count_append] at h0
    have hpre0 : (chainToks s.bookkeep s.outputs L
        ((s.bookkeep.getD L []).getD 0 0)).count s.eos = 0 := by omega
    rw [List.count_append, hpre0, count_singleton_eos, if_pos rfl]

end C6Assembly

/-- Every returned hypothesis of `get_rescored_finished` reconstructs some
finished record of the (possibly force-finished) state. -/
theorem grf_mem (s : TS ℝ) (n_best : Option ℕ) (q : List ℕ × WithBot ℝ)
    (hq : q ∈ getRescoredFinished s n_best) :
    ∃ tl ∈ (if s.finished.isEmpty then forcedTS s else s).finished,
      q.1 = prettyHyp (if s.finished.isEmpty then forcedTS s else s)
        tl.timestep tl.hypid := by
  simp only [getRescoredFinished] at hq
  rcases List.mem_map.mp hq with ⟨tl2, htl2, rfl⟩
  have htl3 : tl2 ∈ List.insertionSort tailGE
      ((if s.finished.isEmpty then forcedTS s else s).finished.map
        (rescoreTail
          (if s.finished.isEmpty then forcedTS s else s).length_penalty)) := by
    cases n_best with
    | none => exact htl2
    | some n => exact List.mem_of_mem_take htl2
  rw [(List.perm_insertionSort tailGE _).mem_iff] at htl3
  rcases List.mem_map.mp htl3 with ⟨tl, htl, rfl⟩
  exact ⟨tl, htl, rfl⟩

/-- Length of the `get_rescored_finished` output. -/
theorem grf_length (s : TS ℝ) (n_best : Option ℕ) :
    (getRescoredFinished s n_best).length =
      match n_best with
      | some n =>
          min n (if s.finished.isEmpty then forcedTS s else s).finished.length
      | none => (if s.finished.isEmpty then forcedTS s else s).finished.length
    := by
  cases n_best with
  | none =>
    simp only [getRescoredFinished]
    rw [List.length_map, (List.perm_insertionSort tailGE _).length_eq,
      List.length_map]
  | some n =>
    simp only [getRescoredFinished]
    rw [List.length_map, List.length_take,
      (List.perm_insertionSort tailGE _).length_eq, List.length_map]

/-- C6 (amended): under the Beam policy, for every sequence of well-shaped
`advance` calls (each tensor `beam` rows of width `V`, with `1 ≤ beam ≤ V`)
and with an end token distinct from token 0 and from the start token,
`get_rescored_finished` returns at least one hypothesis whenever `n_best` is
omitted or at least 1, and every returned token sequence contains the end
token exactly once — i.e. the two postcondition assertions are unreachable.
With `n_best = 0` the returned list is empty (see `C6_counterexample`), so
"at least one hypothesis" needs the `n_best` proviso. -/
theorem C6_rescored_postconditions (beam V : ℕ) (bn cbn : ℤ)
    (pad bos eos minLen : ℕ) (lpp : ℝ) (mats : List (Mat ℝ))
    (n_best : Option ℕ)
    (hbeam : 1 ≤ beam) (hbv : beam ≤ V) (heos0 : eos ≠ 0) (heb : eos ≠ bos)
    (hshape : ∀ m ∈ mats, m.length = beam ∧ ∀ r ∈ m, r.length = V)
    (hn : n_best = none ∨ ∃ n, n_best = some n ∧ 1 ≤ n) :
    1 ≤ (getRescoredFinished
      (List.foldl (advanceStep beamSelect)
        (initTS beam bn cbn pad bos eos minLen lpp) mats) n_best).length ∧
    ∀ q ∈ getRescoredFinished
      (List.foldl (advanceStep beamSelect)
        (initTS beam bn cbn pad bos eos minLen lpp) mats) n_best,
      q.1.count eos = 1 := by
  set sF := List.foldl (advanceStep beamSelect)
    (initTS beam bn cbn pad bos eos minLen lpp) mats with hsF
  have hinv : TSInv beam V sF := TSInv_foldl mats _ hbeam hbv heos0
    (TSInv_init beam V bn cbn pad bos eos minLen lpp heos0 heb) hshape
  have heosF : sF.eos = eos := foldl_eos beamSelect mats _
  have hfinlen : 1 ≤ (if sF.finished.isEmpty then forcedTS sF
      else sF).finished.length := by
    by_cases he : sF.finished.isEmpty
    · rw [if_pos he]
      show 1 ≤ (sF.finished ++ [_]).length
      simp
    · rw [if_neg he]
      have hne : sF.finished ≠ [] := by
        intro hcon
        rw [hcon] at he
        simp at he
      have := List.length_pos.mpr hne
      omega
  constructor
  · rw [grf_length]
    rcases hn with rfl | ⟨n, rfl, hn1⟩
    · exact hfinlen
    · show 1 ≤ min n (if sF.finished.isEmpty then forcedTS sF
        else sF).finished.length
      omega
  · intro q hq
    obtain ⟨tl, htl, hq1⟩ := grf_mem sF n_best q hq
    rw [hq1, prettyHyp_eq_chainToks]
    by_cases he : sF.finished.isEmpty
    · rw [if_pos he] at htl ⊢
      have hemp : sF.finished = [] := by
        cases hl : sF.finished with
        | nil => rfl
        | cons a l =>
          rw [hl] at he
          simp at he
      have hc := forced_count hbeam hinv hemp tl htl
      have heq : (forcedTS sF).eos = eos := heosF
      rw [← heq]
      exact hc
    · rw [if_neg he] at htl ⊢
      obtain ⟨_, _, _, _, _, hfin, _, _⟩ := hinv
      have hc := (hfin tl htl).2
      rw [← heosF]
      exact hc

/-- C6 witness: a one-slot beam over a width-1 vocabulary with no advance
calls: the forced synthesis still yields at least one hypothesis. -/
theorem C6_rescored_postconditions_witness :
    (∀ m ∈ ([] : List (Mat ℝ)), m.length = 1 ∧ ∀ r ∈ m, r.length = 1) ∧
    1 ≤ (getRescoredFinished
      (List.foldl (advanceStep beamSelect)
        (initTS 1 (-1) (-1) 0 1 2 0 (1 : ℝ)) ([] : List (Mat ℝ)))
      none).length :=
  ⟨fun m hm => absurd hm (List.not_mem_nil m),
   (C6_rescored_postconditions 1 1 (-1) (-1) 0 1 2 0 1 [] none
     (by decide) (by decide) (by decide) (by decide)
     (fun m hm => absurd hm (List.not_mem_nil m)) (Or.inl rfl)).1⟩

/-- C6 counterexample: with `n_best = 0` the call returns the empty list:
"every call returns at least one hypothesis" fails, and the source's
`len(n_best_list) >= 1` assertion would fire. -/
theorem C6_counterexample :
    getRescoredFinished (sampleTS ℝ 2 0) (some 0) = [] := rfl
